import Mathlib

/-!
Verification of the uri_parser crate (src/lib.rs, src/parser.rs) against its
specification.  The parser is written with nom 3.2-era macros; this file gives
a shallow embedding of the crate together with the nom combinators it uses,
and proves or refutes the specification claims.

Modelling notes (nom 3.2 semantics, simple-error mode):
* IResult is Done (remaining, value) / Error e / Incomplete needed.
* tag!(t) compares byte by byte: a mismatch inside the overlap is Error; an
  input that is a proper prefix of the tag is Incomplete.
* take_until!(s) is Incomplete when the substring is absent (or the input is
  shorter than the substring); a match at offset 0 succeeds with an empty span.
* is_not!(set) fails on a match of length zero (first byte in the set), and
  otherwise consumes up to the first byte of the set; when no byte of the set
  occurs (including on empty input) it consumes the whole input and returns
  Done, never Incomplete.  This matches the crate's own tests, which parse a
  host and a port that run to the end of the input.
* digit has the same complete-style shape: Error when the first byte is not a
  digit, otherwise the maximal digit run, consuming to the end if needed.
* opt! turns Error into Done(input, None) but passes Incomplete through, which
  is why the crate wraps sub-parsers in complete! (Incomplete to Error).
* separated_list_complete! wraps separator and element in complete!; when the
  first element fails it returns Done(input, empty list).
* dbg! only logs and is semantically the identity.

Bytes are modelled as natural numbers (inputs come from &[u8], so all bytes
are below 256); &str values are byte lists validated by a faithful UTF-8
check (str::from_utf8).  std::path::Path stores its bytes verbatim and
Display prints them verbatim, so Path values are plain byte lists as well.
Rust HashMap is modelled by its contents (an association list built by
insert-with-overwrite); its unspecified iteration order is a parameter of the
serializer model.
-/

namespace Uri

abbrev Bytes := List Nat

/-- Error kinds of nom's simple-error mode, restricted to the ones the crate
can produce. -/
inductive ErrKind where
  | Tag
  | IsNot
  | MapRes
  | Chr
  | Digit
  | Complete
  | TakeUntil
  | SeparatedList
  | Custom (n : Nat)
deriving Repr, DecidableEq

/-- nom's IResult over byte-slice input. -/
inductive IResult (α : Type) where
  | Done (remaining : Bytes) (value : α)
  | Error (e : ErrKind)
  | Incomplete (needed : Nat)
deriving Repr, DecidableEq

/-- Sequencing used by do_parse! chains. -/
def pbind (p : Bytes → IResult α) (f : α → Bytes → IResult β) : Bytes → IResult β :=
  fun i =>
    match p i with
    | .Done r a => f a r
    | .Error e => .Error e
    | .Incomplete n => .Incomplete n

/-- Final value of a do_parse! chain. -/
def ppure (a : α) : Bytes → IResult α := fun i => .Done i a

/-- nom's map! combinator. -/
def pmap (p : Bytes → IResult α) (f : α → β) : Bytes → IResult β :=
  fun i =>
    match p i with
    | .Done r a => .Done r (f a)
    | .Error e => .Error e
    | .Incomplete n => .Incomplete n

/-- nom's map_res! combinator (Result-returning function mapped over Done). -/
def mapRes (p : Bytes → IResult α) (f : α → Option β) : Bytes → IResult β :=
  fun i =>
    match p i with
    | .Done r a =>
      match f a with
      | some b => .Done r b
      | none => .Error .MapRes
    | .Error e => .Error e
    | .Incomplete n => .Incomplete n

/-- nom's opt! combinator: Error is recovered (consuming nothing), Incomplete
is passed through. -/
def popt (p : Bytes → IResult α) : Bytes → IResult (Option α) :=
  fun i =>
    match p i with
    | .Done r a => .Done r (some a)
    | .Error _ => .Done i none
    | .Incomplete n => .Incomplete n

/-- nom's complete! combinator: Incomplete becomes Error(Complete). -/
def pcomplete (p : Bytes → IResult α) : Bytes → IResult α :=
  fun i =>
    match p i with
    | .Done r a => .Done r a
    | .Error e => .Error e
    | .Incomplete _ => .Error .Complete

/-- nom's tag! combinator: byte comparison, Incomplete when the input is a
proper prefix of the tag. -/
def ptag (t : Bytes) : Bytes → IResult Bytes :=
  fun i =>
    if i.length < t.length then
      if i = t.take i.length then .Incomplete t.length else .Error .Tag
    else
      if i.take t.length = t then .Done (i.drop t.length) t else .Error .Tag

/-- nom's char! combinator. -/
def pchar (c : Nat) : Bytes → IResult Nat :=
  fun i =>
    match i with
    | [] => .Incomplete 1
    | b :: r => if b = c then .Done r c else .Error .Chr

/-- Index of the first element satisfying p (iter().position). -/
def findIdxP (p : Nat → Bool) : Bytes → Option Nat
  | [] => none
  | b :: r => if p b then some 0 else (findIdxP p r).map (· + 1)

/-- nom's is_not!: maximal run of bytes outside the stop set, Error when that
run is empty because the first byte is in the set, Done (never Incomplete)
when the run extends to the end of the input. -/
def isNot (stop : Bytes) : Bytes → IResult Bytes :=
  fun i =>
    match findIdxP (fun b => stop.contains b) i with
    | some 0 => .Error .IsNot
    | some n => .Done (i.drop n) (i.take n)
    | none => .Done [] i

/-- First index at which t occurs as a contiguous sub-list. -/
def subIdx (t : Bytes) : Bytes → Option Nat
  | [] => if t = [] then some 0 else none
  | b :: rest =>
    if (b :: rest).take t.length = t then some 0
    else (subIdx t rest).map (· + 1)

/-- nom's take_until!: everything before the first occurrence of t, without
consuming t; Incomplete when t is absent. -/
def takeUntil (t : Bytes) : Bytes → IResult Bytes :=
  fun i =>
    if i.length < t.length then .Incomplete t.length
    else
      match subIdx t i with
      | none => .Incomplete (t.length + 1)
      | some n => .Done (i.drop n) (i.take n)

def isDigitByte (b : Nat) : Bool := 48 ≤ b && b ≤ 57

/-- nom's digit function parser: maximal run of ASCII digits, Error when the
first byte is not a digit, Done when the run reaches the end of input. -/
def digit : Bytes → IResult Bytes :=
  fun i =>
    match findIdxP (fun b => !isDigitByte b) i with
    | some 0 => .Error .Digit
    | some n => .Done (i.drop n) (i.take n)
    | none => .Done [] i

/-- Ranges of the continuation bytes expected after a given start byte, per
RFC 3629 as checked by Rust's run_utf8_validation: none for an invalid start
byte; the first continuation range is narrowed for E0/ED/F0/F4 to exclude
overlong encodings, surrogates and values above U+10FFFF. -/
def utf8Start (b : Nat) : Option (List (Nat × Nat)) :=
  if b ≤ 127 then some []
  else if 194 ≤ b && b ≤ 223 then some [(128, 191)]
  else if b = 224 then some [(160, 191), (128, 191)]
  else if 225 ≤ b && b ≤ 236 then some [(128, 191), (128, 191)]
  else if b = 237 then some [(128, 159), (128, 191)]
  else if 238 ≤ b && b ≤ 239 then some [(128, 191), (128, 191)]
  else if b = 240 then some [(144, 191), (128, 191), (128, 191)]
  else if 241 ≤ b && b ≤ 243 then some [(128, 191), (128, 191), (128, 191)]
  else if b = 244 then some [(128, 143), (128, 191), (128, 191)]
  else none

/-- The UTF-8 validation automaton: pend holds the ranges of the continuation
bytes still expected for the current sequence. -/
def utf8Run : List (Nat × Nat) → Bytes → Bool
  | [], [] => true
  | _ :: _, [] => false
  | [], b :: r =>
    match utf8Start b with
    | some pend => utf8Run pend r
    | none => false
  | (lo, hi) :: ps, b :: r => (lo ≤ b && b ≤ hi) && utf8Run ps r

/-- Faithful model of str::from_utf8 validity. -/
def utf8Valid (l : Bytes) : Bool := utf8Run [] l

/-- str::from_utf8: the same bytes on success (we keep &str values as their
underlying bytes). -/
def fromUtf8 (b : Bytes) : Option Bytes :=
  if utf8Valid b then some b else none

/-! Byte constants: ':' 58, '/' 47, '?' 63, '#' 35, '[' 91, ']' 93, '@' 64,
'&' 38, '=' 61, '+' 43, digits 48-57. -/

/-- Stop set of the general token: ":/?#[]@". -/
def stopToken : Bytes := [58, 47, 63, 35, 91, 93, 64]

/-- Stop set of the path token: ":?#[]". -/
def stopPath : Bytes := [58, 63, 35, 91, 93]

/-- Stop set of the query token: "&=:#[]". -/
def stopQuery : Bytes := [38, 61, 58, 35, 91, 93]

/-- Stop set of the fragment token: ":#[]". -/
def stopHash : Bytes := [58, 35, 91, 93]

/-- named!(token, map_res!(is_not!(":/?#[]@"), str::from_utf8)) -/
def token : Bytes → IResult Bytes := mapRes (isNot stopToken) fromUtf8

/-- named!(scheme, map_res!(take_until!(":"), str::from_utf8)) -/
def scheme : Bytes → IResult Bytes := mapRes (takeUntil [58]) fromUtf8

/-- User credentials of the parsed URI. -/
structure User where
  name : Bytes
  password : Option Bytes
deriving Repr, DecidableEq

/-- The password attempt inside user: do_parse!(tag!(":") >> password: token
>> (password)). -/
def passwordP : Bytes → IResult Bytes :=
  pbind (ptag [58]) fun _ => pbind token fun p => ppure p

/-- named!(user, do_parse!(user: token >> password: opt!(do_parse!(tag!(":")
>> password: token >> (password))) >> tag!("@") >> (User))) -/
def user : Bytes → IResult User :=
  pbind token fun n =>
  pbind (popt passwordP) fun pw =>
  pbind (ptag [64]) fun _ =>
  ppure { name := n, password := pw }

/-- Nat value of an ASCII digit string, as read by from_str_radix. -/
def natOfDigits (l : Bytes) : Nat := l.foldl (fun a b => 10 * a + (b - 48)) 0

/-- The optional leading plus sign accepted by from_str_radix for unsigned
integers. -/
def stripPlus : Bytes → Bytes
  | 43 :: r => r
  | s => s

/-- u16::from_str_radix(s, 10): an optional leading plus sign, then one or
more ASCII digits; empty digits, other characters and values above 65535 are
errors. -/
def fromStrRadix10 (s : Bytes) : Option Nat :=
  let t := stripPlus s
  if t ≠ [] ∧ t.all isDigitByte ∧ natOfDigits t ≤ 65535 then some (natOfDigits t)
  else none

/-- fn bytes_to_u16: str::from_utf8 then u16::from_str_radix(s, 10). -/
def bytesToU16 (b : Bytes) : Option Nat :=
  match fromUtf8 b with
  | some s => fromStrRadix10 s
  | none => none

/-- The port attempt inside authority: do_parse!(tag!(":") >>
p: map_res!(digit, bytes_to_u16) >> (p)). -/
def portP : Bytes → IResult Nat :=
  pbind (ptag [58]) fun _ => pbind (mapRes digit bytesToU16) fun p => ppure p

/-- named!(authority, do_parse!(tag!("//") >> user: opt!(complete!(user)) >>
host: token >> port: opt!(complete!(do_parse!(tag!(":") >>
p: map_res!(digit, bytes_to_u16) >> (p)))) >> (user, host, port))) -/
def authority : Bytes → IResult (Option User × Bytes × Option Nat) :=
  pbind (ptag [47, 47]) fun _ =>
  pbind (popt (pcomplete user)) fun ou =>
  pbind token fun h =>
  pbind (popt (pcomplete portP)) fun op =>
  ppure (ou, h, op)

/-- named!(path_token, map_res!(is_not!(":?#[]"), str::from_utf8)) -/
def path_token : Bytes → IResult Bytes := mapRes (isNot stopPath) fromUtf8

/-- Path::new keeps the text verbatim (and Display prints it verbatim). -/
def pathNew (s : Bytes) : Bytes := s

/-- fn parse_path.  The source guard is written
if i.is_empty() || ! i[0] as char == '/', which by Rust precedence is
(!i[0]) as char == '/', the bitwise complement of the first byte compared to
'/'; for a byte b that is 255 - b == 47, that is b == 208, not a test for a
leading slash. -/
def parse_path : Bytes → IResult Bytes :=
  fun i =>
    match i with
    | [] => .Error (.Custom 1)
    | b :: _ =>
      if 255 - b = 47 then .Error (.Custom 1)
      else pmap path_token pathNew i

/-- named!(query_token, map_res!(is_not!("&=:#[]"), str::from_utf8)) -/
def query_token : Bytes → IResult Bytes := mapRes (isNot stopQuery) fromUtf8

/-- named!(query_item, do_parse!(key: query_token >> char!('=') >>
val: query_token >> (key, val))) -/
def query_item : Bytes → IResult (Bytes × Bytes) :=
  pbind query_token fun k =>
  pbind (pchar 61) fun _ =>
  pbind query_token fun v =>
  ppure (k, v)

/-- Loop of nom's separated_list! after the first element: repeatedly parse a
separator then an element, stopping at the first failure or at an iteration
that consumes nothing; fuel only bounds the recursion and is always supplied
large enough to be irrelevant. -/
def sepLoop (sep : Bytes → IResult α) (item : Bytes → IResult β) :
    Nat → Bytes → List β → Bytes × List β
  | 0, input, acc => (input, acc)
  | fuel + 1, input, acc =>
    match sep input with
    | .Done i2 _ =>
      if i2.length = input.length then (input, acc)
      else
        match item i2 with
        | .Done i3 o =>
          if i3.length = i2.length then (input, acc)
          else sepLoop sep item fuel i3 (acc ++ [o])
        | _ => (input, acc)
    | _ => (input, acc)

/-- nom's separated_list!: zero elements is a success (Done with an empty
list); a first element consuming nothing is ErrorKind::SeparatedList. -/
def separatedList (sep : Bytes → IResult α) (item : Bytes → IResult β) :
    Bytes → IResult (List β) :=
  fun i =>
    match item i with
    | .Error _ => .Done i []
    | .Incomplete n => .Incomplete n
    | .Done r o =>
      if r.length = i.length then .Error .SeparatedList
      else
        let t := sepLoop sep item (r.length + 1) r [o]
        .Done t.1 t.2

/-- HashMap::insert modelled on an association list: overwrite the value in
place on an existing key, append otherwise. -/
def insertKV : List (Bytes × Bytes) → Bytes × Bytes → List (Bytes × Bytes)
  | [], kv => [kv]
  | (k2, v2) :: rest, (k, v) =>
    if k2 = k then (k2, v) :: rest else (k2, v2) :: insertKV rest (k, v)

/-- Vec::into_iter().collect::<HashMap>(): fold of inserts, so a later pair
overwrites an earlier one with the same key. -/
def collect (l : List (Bytes × Bytes)) : List (Bytes × Bytes) :=
  l.foldl insertKV []

/-- HashMap::get. -/
def lookupKV : List (Bytes × Bytes) → Bytes → Option Bytes
  | [], _ => none
  | (k2, v) :: rest, k => if k2 = k then some v else lookupKV rest k

/-- named!(query, map!(preceded!(tag!("?"),
separated_list_complete!(char!('&'), query_item)), collect)).
separated_list_complete! wraps both sub-parsers in complete!. -/
def query : Bytes → IResult (List (Bytes × Bytes)) :=
  pmap
    (pbind (ptag [63]) fun _ =>
      separatedList (pcomplete (pchar 38)) (pcomplete query_item))
    collect

/-- named!(hash_token, map_res!(is_not!(":#[]"), str::from_utf8)) -/
def hash_token : Bytes → IResult Bytes := mapRes (isNot stopHash) fromUtf8

/-- named!(hash, preceded!(tag!("#"), hash_token)) -/
def hash : Bytes → IResult Bytes :=
  pbind (ptag [35]) fun _ => pbind hash_token fun h => ppure h

/-- The parsed URI structure.  query holds the HashMap contents. -/
structure URI where
  scheme : Bytes
  user : Option User
  host : Option Bytes
  port : Option Nat
  path : Option Bytes
  query : Option (List (Bytes × Bytes))
  hash : Option Bytes
deriving Repr, DecidableEq

/-- named!(pub uri, dbg!(do_parse!(scheme >> tag!(":") >> opt!(authority) >>
opt!(parse_path) >> opt!(complete!(query)) >> opt!(complete!(hash)) >>
(match)))).  dbg! only logs and is the identity. -/
def uri : Bytes → IResult URI :=
  pbind scheme fun s =>
  pbind (ptag [58]) fun _ =>
  pbind (popt authority) fun oa =>
  pbind (popt parse_path) fun op =>
  pbind (popt (pcomplete query)) fun oq =>
  pbind (popt (pcomplete hash)) fun oh =>
  ppure
    (match oa with
     | some a => { scheme := s, user := a.1, host := some a.2.1, port := a.2.2,
                   path := op, query := oq, hash := oh }
     | none => { scheme := s, user := none, host := none, port := none,
                 path := op, query := oq, hash := oh })

/-- The URI value assembled at the end of the uri parser. -/
def mkURI (s : Bytes) (oa : Option (Option User × Bytes × Option Nat))
    (op : Option Bytes) (oq : Option (List (Bytes × Bytes))) (oh : Option Bytes) : URI :=
  match oa with
  | some a => { scheme := s, user := a.1, host := some a.2.1, port := a.2.2,
                path := op, query := oq, hash := oh }
  | none => { scheme := s, user := none, host := none, port := none,
              path := op, query := oq, hash := oh }

/-- Possible parsing errors (enum Error in lib.rs). -/
inductive Error where
  | Parse (e : ErrKind)
  | Incomplete
  | NotFullyParsed
deriving Repr, DecidableEq

/-- pub fn parse_uri. -/
def parse_uri (b : Bytes) : Except Error URI :=
  match uri b with
  | .Done remaining u => if remaining = [] then .ok u else .error .NotFullyParsed
  | .Error e => .error (.Parse e)
  | .Incomplete _ => .error .Incomplete

/-- Whether a parse result is the Parse (Malformed) classification. -/
def isParseError : Except Error URI → Bool
  | .error (.Parse _) => true
  | _ => false

/-- ASCII bytes of a string literal (used for concrete test inputs). -/
def ascii (s : String) : Bytes := s.data.map Char.toNat

/-! The serializer: impl Display for URI in lib.rs. -/

/-- Decimal digits of a positive number (most significant first). -/
def decimalAux (n : Nat) : Bytes :=
  if h : n = 0 then []
  else decimalAux (n / 10) ++ [n % 10 + 48]
termination_by n
decreasing_by exact Nat.div_lt_self (Nat.pos_of_ne_zero h) (by norm_num)

/-- Display for u16: canonical decimal digits. -/
def decimal (n : Nat) : Bytes := if n = 0 then [48] else decimalAux n

/-- Rendering of the user part: name, then ":password" when present, then "@". -/
def renderUser (us : User) : Bytes :=
  us.name ++ (match us.password with | some p => 58 :: p | none => []) ++ [64]

/-- Rendering of the query pairs joined by '&' (the prev flag in the source). -/
def renderPairs : List (Bytes × Bytes) → Bytes
  | [] => []
  | [(k, v)] => k ++ [61] ++ v
  | (k, v) :: p :: rest => k ++ [61] ++ v ++ [38] ++ renderPairs (p :: rest)

/-- Rendered user part, empty when absent. -/
def userR : Option User → Bytes
  | some us => renderUser us
  | none => []

/-- Rendered host part, empty when absent. -/
def hostR : Option Bytes → Bytes
  | some h => h
  | none => []

/-- Rendered ":port" part, empty when absent. -/
def portR : Option Nat → Bytes
  | some p => 58 :: decimal p
  | none => []

/-- Rendered path part, empty when absent. -/
def pathR : Option Bytes → Bytes
  | some pa => pa
  | none => []

/-- Rendered "?pairs" part (written whenever the query is Some, with the
pairs in the map's iteration order qp), empty when absent. -/
def queryR : Option (List (Bytes × Bytes)) → List (Bytes × Bytes) → Bytes
  | some _, qp => 63 :: renderPairs qp
  | none, _ => []

/-- Rendered "#fragment" part, empty when absent. -/
def hashR : Option Bytes → Bytes
  | some hs => 35 :: hs
  | none => []

/-- impl Display for URI.  The pairs of the query HashMap are written in the
map's iteration order, which Rust leaves unspecified; the enumeration qp is
therefore a parameter, constrained to a permutation of the map contents where
the serializer is reasoned about. -/
def render (u : URI) (qp : List (Bytes × Bytes)) : Bytes :=
  u.scheme ++ [58]
  ++ (if u.user.isSome || u.host.isSome then [47, 47] else [])
  ++ userR u.user
  ++ hostR u.host
  ++ portR u.port
  ++ pathR u.path
  ++ queryR u.query qp
  ++ hashR u.hash

/-- Tails that agree on being empty or on a first byte that is '?' or '#'
(the boundaries never scanned past by the authority and path parsers). -/
def EndsLike (X X2 : Bytes) : Prop :=
  (X = [] ∧ X2 = []) ∨ (∃ b, (b = 63 ∨ b = 35) ∧ X.head? = some b ∧ X2.head? = some b)

/-- Results of one parser on two inputs that differ only in an EndsLike tail:
both Done with the same value and corresponding remainders, or the same
Error, or both Incomplete. -/
def Rel (X X2 : Bytes) : IResult α → IResult α → Prop :=
  fun r r2 =>
    (∃ C v, r = .Done (C ++ X) v ∧ r2 = .Done (C ++ X2) v) ∨
    (∃ e, r = .Error e ∧ r2 = .Error e) ∨
    (∃ n n2, r = .Incomplete n ∧ r2 = .Incomplete n2)

/-- A parser is boundary-local when its behavior past a common prefix depends
only on whether the tail is empty or starts with '?' or '#'. -/
def IsLocal (p : Bytes → IResult α) : Prop :=
  ∀ A X X2, EndsLike X X2 → Rel X X2 (p (A ++ X)) (p (A ++ X2))

/-- Equality of the query field as a mapping: same lookups for every key
(HashMap equality ignores iteration order). -/
def queryEq : Option (List (Bytes × Bytes)) → Option (List (Bytes × Bytes)) → Prop
  | none, none => True
  | some m1, some m2 => ∀ k, lookupKV m1 k = lookupKV m2 k
  | _, _ => False

/-- Field-level equivalence of two parsed URI values: equal scheme, user,
host, port, path and fragment, and the same query mapping. -/
def fieldsEquiv (a b : URI) : Prop :=
  a.scheme = b.scheme ∧ a.user = b.user ∧ a.host = b.host ∧ a.port = b.port ∧
  a.path = b.path ∧ a.hash = b.hash ∧ queryEq a.query b.query

/-- Well-formedness of a rendered query pair: nonempty key and value, both
free of the query stop set and valid UTF-8 (the shape of every pair the query
parser can produce, plus the nonempty-value restriction of the amended round
trip). -/
def PairWF (kv : Bytes × Bytes) : Prop :=
  kv.1 ≠ [] ∧ (∀ y ∈ kv.1, y ∉ stopQuery) ∧ utf8Valid kv.1 = true ∧
  kv.2 ≠ [] ∧ (∀ y ∈ kv.2, y ∉ stopQuery) ∧ utf8Valid kv.2 = true

/-- The rendering of the query pairs after the first one, each preceded by
its '&' separator. -/
def renderAmp : List (Bytes × Bytes) → Bytes
  | [] => []
  | (k, v) :: rest => 38 :: (k ++ 61 :: (v ++ renderAmp rest))

end Uri

deriving instance DecidableEq for Except

namespace Uri

/-! Basic lemmas about findIdxP. -/

theorem findIdxP_none_eval {p : Nat → Bool} {l : Bytes} (h : ∀ y ∈ l, p y = false) :
    findIdxP p l = none := by
  induction l with
  | nil => rfl
  | cons b r ih =>
    have hb := h b (by simp)
    simp [findIdxP, hb, ih fun y hy => h y (by simp [hy])]

theorem findIdxP_none_inv {p : Nat → Bool} {l : Bytes} (h : findIdxP p l = none) :
    ∀ y ∈ l, p y = false := by
  induction l with
  | nil => simp
  | cons b r ih =>
    cases hb : p b with
    | true => simp [findIdxP, hb] at h
    | false =>
      simp only [findIdxP, hb, Bool.false_eq_true, if_false, Option.map_eq_none'] at h
      intro y hy
      rcases List.mem_cons.mp hy with hy | hy
      · rw [hy]; exact hb
      · exact ih h y hy

theorem findIdxP_split_eval {p : Nat → Bool} {a : Bytes} {x : Nat} (b2 : Bytes)
    (hc : ∀ y ∈ a, p y = false) (hx : p x = true) :
    findIdxP p (a ++ x :: b2) = some a.length := by
  induction a with
  | nil => simp [findIdxP, hx]
  | cons c r ih =>
    have hcp := hc c (by simp)
    simp [findIdxP, hcp, ih fun y hy => hc y (by simp [hy])]

theorem findIdxP_some_split {p : Nat → Bool} {l : Bytes} {n : Nat}
    (h : findIdxP p l = some n) :
    ∃ a x b2, l = a ++ x :: b2 ∧ a.length = n ∧ (∀ y ∈ a, p y = false) ∧ p x = true := by
  induction l generalizing n with
  | nil => simp [findIdxP] at h
  | cons c r ih =>
    cases hc : p c with
    | true =>
      simp only [findIdxP, hc, if_true, Option.some.injEq] at h
      exact ⟨[], c, r, by simp, by simp [← h], by simp, hc⟩
    | false =>
      simp only [findIdxP, hc, Bool.false_eq_true, if_false, Option.map_eq_some'] at h
      obtain ⟨m, hm, hn⟩ := h
      obtain ⟨a, x, b2, hl, hlen, hclean, hx⟩ := ih hm
      refine ⟨c :: a, x, b2, by simp [hl], by simp [hlen, hn], ?_, hx⟩
      intro y hy
      rcases List.mem_cons.mp hy with hy | hy
      · rw [hy]; exact hc
      · exact hclean y hy

/-! Inversion and evaluation lemmas for the nom combinators. -/

@[simp] theorem ppure_eval (a : α) (i : Bytes) : ppure a i = .Done i a := rfl

theorem pbind_done_iff {p : Bytes → IResult α} {f : α → Bytes → IResult β}
    {i r : Bytes} {b : β} :
    pbind p f i = .Done r b ↔ ∃ r1 a, p i = .Done r1 a ∧ f a r1 = .Done r b := by
  cases h : p i with
  | Done r1 a =>
    simp only [pbind, h]
    exact ⟨fun hh => ⟨r1, a, rfl, hh⟩, by rintro ⟨r2, a2, he, hh⟩; cases he; exact hh⟩
  | Error e => simp [pbind, h]
  | Incomplete n => simp [pbind, h]

theorem pbind_incomplete_iff {p : Bytes → IResult α} {f : α → Bytes → IResult β}
    {i : Bytes} {n : Nat} :
    pbind p f i = .Incomplete n ↔
      p i = .Incomplete n ∨ ∃ r1 a, p i = .Done r1 a ∧ f a r1 = .Incomplete n := by
  cases h : p i with
  | Done r1 a =>
    simp only [pbind, h]
    constructor
    · intro hh; exact Or.inr ⟨r1, a, rfl, hh⟩
    · rintro (hh | ⟨r2, a2, he, hh⟩)
      · cases hh
      · cases he; exact hh
  | Error e => simp [pbind, h]
  | Incomplete m => simp [pbind, h]

theorem pbind_error_iff {p : Bytes → IResult α} {f : α → Bytes → IResult β}
    {i : Bytes} {e : ErrKind} :
    pbind p f i = .Error e ↔
      p i = .Error e ∨ ∃ r1 a, p i = .Done r1 a ∧ f a r1 = .Error e := by
  cases h : p i with
  | Done r1 a =>
    simp only [pbind, h]
    constructor
    · intro hh; exact Or.inr ⟨r1, a, rfl, hh⟩
    · rintro (hh | ⟨r2, a2, he, hh⟩)
      · cases hh
      · cases he; exact hh
  | Error e2 => simp [pbind, h]
  | Incomplete m => simp [pbind, h]

theorem pmap_done_iff {p : Bytes → IResult α} {f : α → β} {i r : Bytes} {b : β} :
    pmap p f i = .Done r b ↔ ∃ a, p i = .Done r a ∧ f a = b := by
  cases h : p i with
  | Done r1 a =>
    simp only [pmap, h]
    constructor
    · rintro hh; cases hh; exact ⟨a, rfl, rfl⟩
    · rintro ⟨a2, he, hh⟩; cases he; cases hh; rfl
  | Error e => simp [pmap, h]
  | Incomplete n => simp [pmap, h]

theorem mapRes_done_iff {p : Bytes → IResult α} {f : α → Option β} {i r : Bytes} {b : β} :
    mapRes p f i = .Done r b ↔ ∃ a, p i = .Done r a ∧ f a = some b := by
  cases h : p i with
  | Done r1 a1 =>
    cases hf : f a1 with
    | some v =>
      simp only [mapRes, h, hf]
      constructor
      · rintro hh; cases hh; exact ⟨a1, rfl, hf⟩
      · rintro ⟨a2, he, hh⟩; cases he; rw [hf] at hh; cases hh; rfl
    | none =>
      simp only [mapRes, h, hf]
      constructor
      · rintro hh; cases hh
      · rintro ⟨a2, he, hh⟩; cases he; rw [hf] at hh; cases hh
  | Error e => simp [mapRes, h]
  | Incomplete n => simp [mapRes, h]

theorem mapRes_incomplete_iff {p : Bytes → IResult α} {f : α → Option β} {i : Bytes} {n : Nat} :
    mapRes p f i = .Incomplete n ↔ p i = .Incomplete n := by
  cases h : p i with
  | Done r1 a1 => cases hf : f a1 <;> simp [mapRes, h, hf]
  | Error e => simp [mapRes, h]
  | Incomplete m => simp [mapRes, h]

theorem popt_done_iff {p : Bytes → IResult α} {i r : Bytes} {o : Option α} :
    popt p i = .Done r o ↔
      (∃ a, o = some a ∧ p i = .Done r a) ∨ (o = none ∧ r = i ∧ ∃ e, p i = .Error e) := by
  cases h : p i with
  | Done r1 a =>
    simp only [popt, h]
    constructor
    · rintro hh; cases hh; exact Or.inl ⟨a, rfl, rfl⟩
    · rintro (⟨a2, ho, he⟩ | ⟨ho, hr, e, he⟩)
      · cases he; cases ho; rfl
      · cases he
  | Error e =>
    simp only [popt, h]
    constructor
    · rintro hh; cases hh; exact Or.inr ⟨rfl, rfl, e, rfl⟩
    · rintro (⟨a2, ho, he⟩ | ⟨ho, hr, e2, he⟩)
      · cases he
      · cases ho; cases hr; rfl
  | Incomplete n => simp [popt, h]

theorem popt_incomplete_iff {p : Bytes → IResult α} {i : Bytes} {n : Nat} :
    popt p i = .Incomplete n ↔ p i = .Incomplete n := by
  cases h : p i <;> simp [popt, h]

theorem pcomplete_done_iff {p : Bytes → IResult α} {i r : Bytes} {a : α} :
    pcomplete p i = .Done r a ↔ p i = .Done r a := by
  cases h : p i <;> simp [pcomplete, h]

theorem pcomplete_error_iff {p : Bytes → IResult α} {i : Bytes} {e : ErrKind} :
    pcomplete p i = .Error e ↔
      p i = .Error e ∨ (e = .Complete ∧ ∃ n, p i = .Incomplete n) := by
  cases h : p i <;> simp [pcomplete, h, eq_comm]

theorem pcomplete_not_incomplete {p : Bytes → IResult α} {i : Bytes} {n : Nat} :
    pcomplete p i ≠ .Incomplete n := by
  cases h : p i <;> simp [pcomplete, h]

/-! Lemmas about is_not! and digit. -/

theorem contains_false_of_not_mem {st : Bytes} {y : Nat} (h : y ∉ st) :
    st.contains y = false := by
  simp [h]

theorem contains_true_of_mem {st : Bytes} {y : Nat} (h : y ∈ st) :
    st.contains y = true := by
  simp [h]

theorem mem_of_contains_true {st : Bytes} {y : Nat} (h : st.contains y = true) :
    y ∈ st := by
  simpa using h

theorem not_mem_of_contains_false {st : Bytes} {y : Nat} (h : st.contains y = false) :
    y ∉ st := by
  simpa using h

theorem isNot_of_findIdxP_succ {st i : Bytes} {n : Nat}
    (hf : findIdxP (fun y => st.contains y) i = some (n + 1)) :
    isNot st i = .Done (i.drop (n + 1)) (i.take (n + 1)) := by
  simp only [isNot, hf]

theorem isNot_eval_cons {st : Bytes} {b : Nat} (r : Bytes) (hb : b ∈ st) :
    isNot st (b :: r) = .Error .IsNot := by
  have hf : findIdxP (fun y => st.contains y) (b :: r) = some 0 := by
    simp [findIdxP, hb]
  simp only [isNot, hf]

theorem isNot_eval_mid {st v : Bytes} {b : Nat} (r : Bytes)
    (hv : ∀ y ∈ v, y ∉ st) (hvne : v ≠ []) (hb : b ∈ st) :
    isNot st (v ++ b :: r) = .Done (b :: r) v := by
  have hf : findIdxP (fun y => st.contains y) (v ++ b :: r) = some v.length :=
    findIdxP_split_eval r (fun y hy => contains_false_of_not_mem (hv y hy))
      (contains_true_of_mem hb)
  obtain ⟨n, hn⟩ : ∃ n, v.length = n + 1 := by
    rcases v with _ | ⟨x, xs⟩
    · exact absurd rfl hvne
    · exact ⟨xs.length, rfl⟩
  rw [hn] at hf
  rw [isNot_of_findIdxP_succ hf, ← hn, List.take_left, List.drop_left]

theorem isNot_eval_all {st v : Bytes} (hv : ∀ y ∈ v, y ∉ st) :
    isNot st v = .Done [] v := by
  have hf : findIdxP (fun y => st.contains y) v = none :=
    findIdxP_none_eval (fun y hy => contains_false_of_not_mem (hv y hy))
  simp only [isNot, hf]

theorem isNot_done_inv {st i r v : Bytes} (h : isNot st i = .Done r v) :
    i = v ++ r ∧ (∀ y ∈ v, y ∉ st) ∧
      (r = [] ∨ (∃ b rt, r = b :: rt ∧ b ∈ st ∧ v ≠ [])) := by
  rcases hf : findIdxP (fun y => st.contains y) i with _ | n
  · simp only [isNot, hf] at h
    cases h
    exact ⟨by simp, fun y hy => not_mem_of_contains_false (findIdxP_none_inv hf y hy),
      Or.inl rfl⟩
  · obtain ⟨a, x, b2, hi, hlen, hclean, hx⟩ := findIdxP_some_split hf
    rcases n with _ | m
    · simp only [isNot, hf] at h
      cases h
    · rw [isNot_of_findIdxP_succ hf] at h
      cases h
      subst hi
      rw [← hlen, List.take_left, List.drop_left]
      refine ⟨rfl, fun y hy => not_mem_of_contains_false (hclean y hy),
        Or.inr ⟨x, b2, rfl, mem_of_contains_true hx, ?_⟩⟩
      intro hnil
      rw [hnil] at hlen
      simp at hlen

theorem isNot_done_nil_inv {st i r : Bytes} (h : isNot st i = .Done r []) :
    i = [] ∧ r = [] := by
  obtain ⟨hi, _, hr⟩ := isNot_done_inv h
  rcases hr with hr | ⟨b, rt, hrr, _, hne⟩
  · subst hr; simpa using hi
  · exact absurd rfl hne

theorem isNot_error_inv {st i : Bytes} {e : ErrKind} (h : isNot st i = .Error e) :
    e = .IsNot ∧ ∃ b rt, i = b :: rt ∧ b ∈ st := by
  rcases hf : findIdxP (fun y => st.contains y) i with _ | n
  · simp only [isNot, hf] at h
    cases h
  · rcases n with _ | m
    · obtain ⟨a, x, b2, hi, hlen, hclean, hx⟩ := findIdxP_some_split hf
      have ha : a = [] := by simpa [List.length_eq_zero] using hlen
      subst ha
      simp only [isNot, hf] at h
      cases h
      exact ⟨rfl, x, b2, by simpa using hi, mem_of_contains_true hx⟩
    · rw [isNot_of_findIdxP_succ hf] at h
      cases h

theorem isNot_not_incomplete {st i : Bytes} {n : Nat} : isNot st i ≠ .Incomplete n := by
  rcases hf : findIdxP (fun y => st.contains y) i with _ | m
  · simp only [isNot, hf]
    simp
  · rcases m with _ | m
    · simp only [isNot, hf]
      simp
    · rw [isNot_of_findIdxP_succ hf]
      simp

theorem digit_of_findIdxP_succ {i : Bytes} {n : Nat}
    (hf : findIdxP (fun y => !isDigitByte y) i = some (n + 1)) :
    digit i = .Done (i.drop (n + 1)) (i.take (n + 1)) := by
  simp only [digit, hf]

theorem digit_eval_mid {v : Bytes} {b : Nat} (r : Bytes)
    (hv : ∀ y ∈ v, isDigitByte y = true) (hvne : v ≠ []) (hb : isDigitByte b = false) :
    digit (v ++ b :: r) = .Done (b :: r) v := by
  have hf : findIdxP (fun y => !isDigitByte y) (v ++ b :: r) = some v.length :=
    findIdxP_split_eval r (fun y hy => by simp [hv y hy]) (by simp [hb])
  obtain ⟨n, hn⟩ : ∃ n, v.length = n + 1 := by
    rcases v with _ | ⟨x, xs⟩
    · exact absurd rfl hvne
    · exact ⟨xs.length, rfl⟩
  rw [hn] at hf
  rw [digit_of_findIdxP_succ hf, ← hn, List.take_left, List.drop_left]

theorem digit_eval_all {v : Bytes} (hv : ∀ y ∈ v, isDigitByte y = true) :
    digit v = .Done [] v := by
  have hf : findIdxP (fun y => !isDigitByte y) v = none :=
    findIdxP_none_eval (fun y hy => by simp [hv y hy])
  simp only [digit, hf]

theorem digit_eval_cons {b : Nat} (r : Bytes) (hb : isDigitByte b = false) :
    digit (b :: r) = .Error .Digit := by
  have hf : findIdxP (fun y => !isDigitByte y) (b :: r) = some 0 := by
    simp [findIdxP, hb]
  simp only [digit, hf]

theorem digit_done_inv {i r v : Bytes} (h : digit i = .Done r v) :
    i = v ++ r ∧ (∀ y ∈ v, isDigitByte y = true) ∧
      (r = [] ∨ (∃ b rt, r = b :: rt ∧ isDigitByte b = false ∧ v ≠ [])) := by
  rcases hf : findIdxP (fun y => !isDigitByte y) i with _ | n
  · simp only [digit, hf] at h
    cases h
    refine ⟨by simp, fun y hy => ?_, Or.inl rfl⟩
    have := findIdxP_none_inv hf y hy
    simpa using this
  · obtain ⟨a, x, b2, hi, hlen, hclean, hx⟩ := findIdxP_some_split hf
    rcases n with _ | m
    · simp only [digit, hf] at h
      cases h
    · rw [digit_of_findIdxP_succ hf] at h
      cases h
      subst hi
      rw [← hlen, List.take_left, List.drop_left]
      refine ⟨rfl, fun y hy => by simpa using hclean y hy,
        Or.inr ⟨x, b2, rfl, by simpa using hx, ?_⟩⟩
      intro hnil
      rw [hnil] at hlen
      simp at hlen

/-! Lemmas about tag!, char!, take_until!. -/

theorem ptag_self_append (t r : Bytes) : ptag t (t ++ r) = .Done r t := by
  have h1 : ¬ (t ++ r).length < t.length := by simp
  simp [ptag, h1, List.take_left, List.drop_left]

theorem ptag_done_inv {t i r v : Bytes} (h : ptag t i = .Done r v) :
    v = t ∧ i = t ++ r := by
  simp only [ptag] at h
  by_cases h1 : i.length < t.length
  · rw [if_pos h1] at h
    by_cases h2 : i = t.take i.length
    · rw [if_pos h2] at h; cases h
    · rw [if_neg h2] at h; cases h
  · rw [if_neg h1] at h
    by_cases h2 : i.take t.length = t
    · rw [if_pos h2] at h
      cases h
      refine ⟨rfl, ?_⟩
      conv_lhs => rw [← List.take_append_drop t.length i]
      rw [h2]
    · rw [if_neg h2] at h; cases h

theorem ptag_nil {t : Bytes} (h : t ≠ []) : ptag t [] = .Incomplete t.length := by
  have h1 : ([] : Bytes).length < t.length := by
    simpa [List.length_pos] using h
  have h2 : ([] : Bytes) = t.take ([] : Bytes).length := by simp
  simp only [ptag]
  rw [if_pos h1, if_pos h2]

theorem ptag_cons_ne {c b : Nat} (t2 r : Bytes) (h : b ≠ c) :
    ptag (c :: t2) (b :: r) = .Error .Tag := by
  simp only [ptag]
  by_cases h1 : (b :: r).length < (c :: t2).length
  · rw [if_pos h1]
    have h2 : ¬ (b :: r) = (c :: t2).take (b :: r).length := by
      intro he
      rw [List.length_cons, List.take_succ_cons] at he
      exact h (List.cons.injEq b r c (t2.take r.length) ▸ he).1
    rw [if_neg h2]
  · rw [if_neg h1]
    have h2 : ¬ (b :: r).take (c :: t2).length = c :: t2 := by
      intro he
      rw [List.length_cons, List.take_succ_cons] at he
      exact h (List.cons.injEq b (r.take t2.length) c t2 ▸ he).1
    rw [if_neg h2]

theorem ptag_two_prefix {c d : Nat} : ptag [c, d] [c] = .Incomplete 2 := by
  have h1 : ([c] : Bytes).length < ([c, d] : Bytes).length := by simp
  simp [ptag, h1]

theorem ptag_two_ne {c1 c2 b : Nat} (r : Bytes) (h : b ≠ c2) :
    ptag [c1, c2] (c1 :: b :: r) = .Error .Tag := by
  simp only [ptag]
  have h1 : ¬ (c1 :: b :: r).length < ([c1, c2] : Bytes).length := by
    simp
  rw [if_neg h1]
  have h2 : ¬ (c1 :: b :: r).take ([c1, c2] : Bytes).length = [c1, c2] := by
    intro he
    simp [List.take_succ_cons] at he
    exact h he
  rw [if_neg h2]

theorem pchar_eval_eq (c : Nat) (r : Bytes) : pchar c (c :: r) = .Done r c := by
  simp [pchar]

theorem pchar_eval_ne {c b : Nat} (r : Bytes) (h : b ≠ c) :
    pchar c (b :: r) = .Error .Chr := by
  simp [pchar, h]

theorem pchar_nil (c : Nat) : pchar c [] = .Incomplete 1 := rfl

theorem pchar_done_inv {c : Nat} {i r : Bytes} {v : Nat} (h : pchar c i = .Done r v) :
    v = c ∧ i = c :: r := by
  rcases i with _ | ⟨b, rt⟩
  · simp [pchar] at h
  · by_cases hb : b = c
    · subst hb
      simp only [pchar, if_pos rfl] at h
      cases h
      exact ⟨rfl, rfl⟩
    · simp [pchar, hb] at h

theorem subIdx_singleton (c : Nat) (l : Bytes) :
    subIdx [c] l = findIdxP (fun b => b == c) l := by
  induction l with
  | nil => rfl
  | cons b r ih =>
    by_cases hb : b = c
    · subst hb
      simp [subIdx, findIdxP]
    · have h1 : ¬ (b :: r).take ([c] : Bytes).length = [c] := by simp [hb]
      have h2 : (b == c) = false := by simp [hb]
      simp only [subIdx, h1, if_false, findIdxP, h2, Bool.false_eq_true, ih]

theorem byte_ne_of_not_mem_beq {y c : Nat} (h : y ≠ c) : (y == c) = false := by
  simp [h]

theorem takeUntil_eval {c : Nat} {s : Bytes} (r : Bytes) (hs : c ∉ s) :
    takeUntil [c] (s ++ c :: r) = .Done (c :: r) s := by
  have h1 : ¬ (s ++ c :: r).length < ([c] : Bytes).length := by simp
  have hf : findIdxP (fun b => b == c) (s ++ c :: r) = some s.length :=
    findIdxP_split_eval r
      (fun y hy => byte_ne_of_not_mem_beq (fun he => hs (he ▸ hy))) (by simp)
  simp only [takeUntil, h1, if_false, subIdx_singleton, hf, List.take_left,
    List.drop_left]

theorem takeUntil_absent {c : Nat} {i : Bytes} (hs : c ∉ i) :
    ∃ n, takeUntil [c] i = .Incomplete n := by
  rcases i with _ | ⟨b, rest⟩
  · exact ⟨1, rfl⟩
  · have h1 : ¬ (b :: rest).length < ([c] : Bytes).length := by simp
    have hf : findIdxP (fun x => x == c) (b :: rest) = none :=
      findIdxP_none_eval (fun y hy => byte_ne_of_not_mem_beq (fun he => hs (he ▸ hy)))
    refine ⟨2, ?_⟩
    have h2 : ¬ (b :: rest).length < 1 := by simp
    simp only [takeUntil, subIdx_singleton, hf, List.length_singleton, h2, if_false]

theorem takeUntil_red_some {t i : Bytes} {n : Nat} (h1 : ¬ i.length < t.length)
    (hf : subIdx t i = some n) : takeUntil t i = .Done (i.drop n) (i.take n) := by
  simp only [takeUntil, h1, if_false, hf]

theorem takeUntil_done_inv {c : Nat} {i r v : Bytes} (h : takeUntil [c] i = .Done r v) :
    ∃ rt, i = v ++ c :: rt ∧ r = c :: rt ∧ c ∉ v := by
  by_cases h1 : i.length < ([c] : Bytes).length
  · have hred : takeUntil [c] i = .Incomplete (([c] : Bytes).length) := by
      simp only [takeUntil, h1, if_true]
    rw [hred] at h; cases h
  · rcases hf : subIdx [c] i with _ | n
    · have hred : takeUntil [c] i = .Incomplete (([c] : Bytes).length + 1) := by
        simp only [takeUntil, h1, if_false, hf]
      rw [hred] at h; cases h
    · rw [takeUntil_red_some h1 hf] at h
      cases h
      rw [subIdx_singleton] at hf
      obtain ⟨a, x, b2, hi, hlen, hclean, hx⟩ := findIdxP_some_split hf
      have hxc : x = c := by simpa using hx
      subst hi
      rw [← hlen, List.take_left, List.drop_left, hxc]
      refine ⟨b2, rfl, rfl, fun hc => ?_⟩
      have h2 := hclean c hc
      simp at h2

/-! Token-level lemmas: every token parser of the crate is
map_res!(is_not!(set), str::from_utf8). -/

theorem fromUtf8_some_inv {a t : Bytes} (h : fromUtf8 a = some t) :
    t = a ∧ utf8Valid a = true := by
  by_cases hv : utf8Valid a
  · simp only [fromUtf8, hv, if_true, Option.some.injEq] at h
    exact ⟨h.symm, hv⟩
  · simp [fromUtf8, hv] at h

theorem fromUtf8_valid {a : Bytes} (h : utf8Valid a = true) : fromUtf8 a = some a := by
  simp [fromUtf8, h]

theorem tokGen_done_inv {st i r t : Bytes}
    (h : mapRes (isNot st) fromUtf8 i = .Done r t) :
    i = t ++ r ∧ (∀ y ∈ t, y ∉ st) ∧ utf8Valid t = true ∧
      (r = [] ∨ ∃ b rt, r = b :: rt ∧ b ∈ st ∧ t ≠ []) := by
  obtain ⟨a, hp, hf⟩ := mapRes_done_iff.mp h
  obtain ⟨hta, hva⟩ := fromUtf8_some_inv hf
  subst hta
  obtain ⟨hi, hclean, hrest⟩ := isNot_done_inv hp
  exact ⟨hi, hclean, hva, hrest⟩

theorem tokGen_done_nil {st i r : Bytes}
    (h : mapRes (isNot st) fromUtf8 i = .Done r []) : i = [] ∧ r = [] := by
  obtain ⟨a, hp, hf⟩ := mapRes_done_iff.mp h
  obtain ⟨hta, _⟩ := fromUtf8_some_inv hf
  subst hta
  exact isNot_done_nil_inv hp

theorem tokGen_eval_mid {st t : Bytes} {b : Nat} (r : Bytes)
    (hclean : ∀ y ∈ t, y ∉ st) (hvne : t ≠ []) (hb : b ∈ st)
    (hv : utf8Valid t = true) :
    mapRes (isNot st) fromUtf8 (t ++ b :: r) = .Done (b :: r) t := by
  have h1 := isNot_eval_mid r hclean hvne hb
  simp only [mapRes, h1, fromUtf8_valid hv]

theorem tokGen_eval_all {st t : Bytes} (hclean : ∀ y ∈ t, y ∉ st)
    (hv : utf8Valid t = true) :
    mapRes (isNot st) fromUtf8 t = .Done [] t := by
  have h1 := isNot_eval_all hclean
  simp only [mapRes, h1, fromUtf8_valid hv]

theorem tokGen_eval_cons {st : Bytes} {b : Nat} (r : Bytes) (hb : b ∈ st) :
    mapRes (isNot st) fromUtf8 (b :: r) = .Error .IsNot := by
  have h1 := isNot_eval_cons r hb
  simp only [mapRes, h1]

theorem tokGen_error_inv {st i : Bytes} {e : ErrKind}
    (h : mapRes (isNot st) fromUtf8 i = .Error e) :
    (∃ b rt, i = b :: rt ∧ b ∈ st) ∨ e = .MapRes := by
  cases hp : isNot st i with
  | Done r a =>
    simp only [mapRes, hp] at h
    cases hf : fromUtf8 a with
    | some t => rw [hf] at h; cases h
    | none => exact Or.inr (by rw [hf] at h; cases h; rfl)
  | Error e2 =>
    simp only [mapRes, hp] at h
    cases h
    obtain ⟨_, b, rt, hi, hb⟩ := isNot_error_inv hp
    exact Or.inl ⟨b, rt, hi, hb⟩
  | Incomplete n => exact absurd hp isNot_not_incomplete

theorem tokGen_not_incomplete {st i : Bytes} {n : Nat} :
    mapRes (isNot st) fromUtf8 i ≠ .Incomplete n := by
  intro h
  exact isNot_not_incomplete (mapRes_incomplete_iff.mp h)

/-! Inversion of the top-level do_parse! chain of uri. -/

theorem popt_pcomplete_done_inv {p : Bytes → IResult α} {i r : Bytes} {o : Option α}
    (h : popt (pcomplete p) i = .Done r o) :
    (∃ a, o = some a ∧ p i = .Done r a) ∨ (o = none ∧ r = i) := by
  rcases popt_done_iff.mp h with ⟨a, ho, hp⟩ | ⟨ho, hr, e, he⟩
  · exact Or.inl ⟨a, ho, pcomplete_done_iff.mp hp⟩
  · exact Or.inr ⟨ho, hr⟩

theorem uri_eq_chain (i : Bytes) :
    uri i =
      (pbind scheme fun s =>
       pbind (ptag [58]) fun _ =>
       pbind (popt authority) fun oa =>
       pbind (popt parse_path) fun op =>
       pbind (popt (pcomplete query)) fun oq =>
       pbind (popt (pcomplete hash)) fun oh =>
       ppure (mkURI s oa op oq oh)) i := rfl

theorem uri_done_elim {i rem : Bytes} {u : URI} (h : uri i = .Done rem u) :
    ∃ s r2 oa r3 op r4 oq r5 oh,
      scheme i = .Done (58 :: r2) s ∧
      popt authority r2 = .Done r3 oa ∧
      popt parse_path r3 = .Done r4 op ∧
      popt (pcomplete query) r4 = .Done r5 oq ∧
      popt (pcomplete hash) r5 = .Done rem oh ∧
      u = mkURI s oa op oq oh := by
  rw [uri_eq_chain] at h
  obtain ⟨r1, s, hs, h⟩ := pbind_done_iff.mp h
  obtain ⟨r2, tv, ht, h⟩ := pbind_done_iff.mp h
  obtain ⟨htv, hr1⟩ := ptag_done_inv ht
  obtain ⟨r3, oa, ha, h⟩ := pbind_done_iff.mp h
  obtain ⟨r4, op, hp, h⟩ := pbind_done_iff.mp h
  obtain ⟨r5, oq, hq, h⟩ := pbind_done_iff.mp h
  obtain ⟨r6, oh, hh, h⟩ := pbind_done_iff.mp h
  simp only [ppure_eval] at h
  cases h
  subst hr1
  exact ⟨s, r2, oa, r3, op, r4, oq, r5, oh, hs, ha, hp, hq, hh, rfl⟩

/-! Arithmetic facts about digits, natOfDigits and decimal. -/

theorem isDigitByte_iff {y : Nat} : isDigitByte y = true ↔ 48 ≤ y ∧ y ≤ 57 := by
  simp [isDigitByte]

theorem digit_byte_le127 {y : Nat} (h : isDigitByte y = true) : y ≤ 127 := by
  rw [isDigitByte_iff] at h
  omega

theorem digit_not_stopToken {y : Nat} (h : isDigitByte y = true) : y ∉ stopToken := by
  rw [isDigitByte_iff] at h
  intro hm
  simp [stopToken] at hm
  omega

theorem digit_not_stopPath {y : Nat} (h : isDigitByte y = true) : y ∉ stopPath := by
  rw [isDigitByte_iff] at h
  intro hm
  simp [stopPath] at hm
  omega

theorem digit_ne_43 {y : Nat} (h : isDigitByte y = true) : y ≠ 43 := by
  rw [isDigitByte_iff] at h
  omega

theorem utf8Valid_cons_le127 {b : Nat} (r : Bytes) (hb : b ≤ 127) :
    utf8Valid (b :: r) = utf8Valid r := by
  have hs : utf8Start b = some [] := by
    simp only [utf8Start, if_pos hb]
  simp only [utf8Valid, utf8Run, hs]

theorem utf8Valid_ascii {l : Bytes} (h : ∀ y ∈ l, y ≤ 127) : utf8Valid l = true := by
  induction l with
  | nil => rfl
  | cons b r ih =>
    rw [utf8Valid_cons_le127 r (h b (by simp))]
    exact ih fun y hy => h y (by simp [hy])

theorem natOfDigits_append_single (a : Bytes) (d : Nat) :
    natOfDigits (a ++ [d]) = 10 * natOfDigits a + (d - 48) := by
  simp [natOfDigits, List.foldl_append]

theorem natOfDigits_decimalAux : ∀ n, natOfDigits (decimalAux n) = n := by
  intro n
  induction n using Nat.strong_induction_on with
  | _ n ih =>
    by_cases h : n = 0
    · subst h
      simp [decimalAux, natOfDigits]
    · rw [decimalAux, dif_neg h, natOfDigits_append_single,
        ih (n / 10) (Nat.div_lt_self (Nat.pos_of_ne_zero h) (by norm_num))]
      have := Nat.div_add_mod n 10
      omega

theorem natOfDigits_decimal (n : Nat) : natOfDigits (decimal n) = n := by
  by_cases h : n = 0
  · subst h; simp [decimal, natOfDigits]
  · rw [decimal, if_neg h, natOfDigits_decimalAux]

theorem decimalAux_digits : ∀ n, ∀ y ∈ decimalAux n, isDigitByte y = true := by
  intro n
  induction n using Nat.strong_induction_on with
  | _ n ih =>
    by_cases h : n = 0
    · subst h
      simp [decimalAux]
    · rw [decimalAux, dif_neg h]
      intro y hy
      rcases List.mem_append.mp hy with hy | hy
      · exact ih (n / 10) (Nat.div_lt_self (Nat.pos_of_ne_zero h) (by norm_num)) y hy
      · have : y = n % 10 + 48 := by simpa using hy
        subst this
        rw [isDigitByte_iff]
        have := Nat.mod_lt n (show 0 < 10 by norm_num)
        omega

theorem decimal_digits (n : Nat) : ∀ y ∈ decimal n, isDigitByte y = true := by
  by_cases h : n = 0
  · subst h
    intro y hy
    simp [decimal] at hy
    subst hy
    rfl
  · rw [decimal, if_neg h]
    exact decimalAux_digits n

theorem decimal_ne_nil (n : Nat) : decimal n ≠ [] := by
  by_cases h : n = 0
  · subst h; simp [decimal]
  · rw [decimal, if_neg h, decimalAux, dif_neg h]
    simp

/-! Facts about from_str_radix and bytes_to_u16. -/

theorem fromStrRadix10_digits {ds : Bytes} (hd : ∀ y ∈ ds, isDigitByte y = true)
    (hne : ds ≠ []) :
    fromStrRadix10 ds =
      if natOfDigits ds ≤ 65535 then some (natOfDigits ds) else none := by
  rcases ds with _ | ⟨d, rest⟩
  · exact absurd rfl hne
  · have hd43 : d ≠ 43 := digit_ne_43 (hd d (by simp))
    have hmatch : stripPlus (d :: rest) = d :: rest := by
      rw [stripPlus.eq_def]
      split
      · next heq => injection heq with h1 _; exact absurd h1 hd43
      · rfl
    have hall : (d :: rest).all isDigitByte = true := by
      rw [List.all_eq_true]
      exact hd
    simp only [fromStrRadix10]
    rw [hmatch]
    by_cases hle : natOfDigits (d :: rest) ≤ 65535
    · rw [if_pos ⟨by simp, hall, hle⟩, if_pos hle]
    · rw [if_neg (by simp [hle, hall]), if_neg hle]

theorem bytesToU16_digits {ds : Bytes} (hd : ∀ y ∈ ds, isDigitByte y = true)
    (hne : ds ≠ []) :
    bytesToU16 ds =
      if natOfDigits ds ≤ 65535 then some (natOfDigits ds) else none := by
  have hv : utf8Valid ds = true := utf8Valid_ascii fun y hy => digit_byte_le127 (hd y hy)
  simp only [bytesToU16, fromUtf8_valid hv]
  exact fromStrRadix10_digits hd hne

theorem bytesToU16_nil : bytesToU16 [] = none := rfl

theorem bytesToU16_digits_some_inv {ds : Bytes} {p : Nat}
    (hd : ∀ y ∈ ds, isDigitByte y = true) (h : bytesToU16 ds = some p) :
    ds ≠ [] ∧ natOfDigits ds = p ∧ p ≤ 65535 := by
  rcases ds with _ | ⟨d, rest⟩
  · cases h
  · rw [bytesToU16_digits hd (by simp)] at h
    by_cases hle : natOfDigits (d :: rest) ≤ 65535
    · rw [if_pos hle] at h
      cases h
      exact ⟨by simp, rfl, hle⟩
    · rw [if_neg hle] at h
      cases h

/-! Inversion of the user, port and authority parsers. -/

theorem passwordP_done_inv {i r p : Bytes} (h : passwordP i = .Done r p) :
    i = 58 :: (p ++ r) ∧ (∀ y ∈ p, y ∉ stopToken) ∧ utf8Valid p = true ∧
      (p = [] → r = []) := by
  obtain ⟨r1, tv, htag, h⟩ := pbind_done_iff.mp h
  obtain ⟨r2, pv, htok, h⟩ := pbind_done_iff.mp h
  simp only [ppure_eval] at h
  cases h
  obtain ⟨htv, hi⟩ := ptag_done_inv htag
  obtain ⟨hr1, hclean, hutf, _⟩ := tokGen_done_inv htok
  subst hi hr1
  refine ⟨rfl, hclean, hutf, fun hp => ?_⟩
  subst hp
  obtain ⟨h1, h2⟩ := tokGen_done_nil htok
  exact h2

theorem passwordP_nil_incomplete : passwordP [] = .Incomplete 1 := by
  have ht : ptag [58] ([] : Bytes) = .Incomplete 1 := ptag_nil (by simp)
  simp only [passwordP, pbind, ht]

theorem user_done_inv {i r : Bytes} {us : User} (h : user i = .Done r us) :
    us.name ≠ [] ∧ (∀ y ∈ us.name, y ∉ stopToken) ∧ utf8Valid us.name = true ∧
      (match us.password with
       | some p => p ≠ [] ∧ (∀ y ∈ p, y ∉ stopToken) ∧ utf8Valid p = true ∧
           i = us.name ++ 58 :: (p ++ 64 :: r)
       | none => i = us.name ++ 64 :: r) := by
  obtain ⟨r1, n, htok, h⟩ := pbind_done_iff.mp h
  obtain ⟨r2, opw, hopw, h⟩ := pbind_done_iff.mp h
  obtain ⟨r3, tv, htag, h⟩ := pbind_done_iff.mp h
  simp only [ppure_eval] at h
  cases h
  obtain ⟨htv, hr2⟩ := ptag_done_inv htag
  obtain ⟨hi1, hcl, hv, _⟩ := tokGen_done_inv htok
  have hnne : n ≠ [] := by
    intro hn
    subst hn
    obtain ⟨hi0, hr0⟩ := tokGen_done_nil htok
    subst hr0
    have hinc : popt passwordP [] = .Incomplete 1 := by
      simp only [popt, passwordP_nil_incomplete]
    rw [hopw] at hinc
    cases hinc
  refine ⟨hnne, hcl, hv, ?_⟩
  rcases popt_done_iff.mp hopw with ⟨p, hop, hpw⟩ | ⟨hop, hre, e, he⟩
  · subst hop
    obtain ⟨hr1, hpcl, hpv, hpnil⟩ := passwordP_done_inv hpw
    have hpne : p ≠ [] := by
      intro hp
      have := hpnil hp
      subst this
      rw [ptag_nil (t := [64]) (by simp)] at htag
      cases htag
    simp only []
    refine ⟨hpne, hpcl, hpv, ?_⟩
    rw [hi1, hr1, hr2]
    simp
  · subst hop hre
    simp only []
    rw [hi1, hr2]
    simp

theorem portP_done_inv {i r : Bytes} {p : Nat} (h : portP i = .Done r p) :
    ∃ ds, i = 58 :: (ds ++ r) ∧ ds ≠ [] ∧ (∀ y ∈ ds, isDigitByte y = true) ∧
      natOfDigits ds = p ∧ p ≤ 65535 ∧
      (r = [] ∨ ∃ b rt, r = b :: rt ∧ isDigitByte b = false) := by
  obtain ⟨r1, tv, htag, h⟩ := pbind_done_iff.mp h
  obtain ⟨r2, pv, hmr, h⟩ := pbind_done_iff.mp h
  simp only [ppure_eval] at h
  cases h
  obtain ⟨htv, hi⟩ := ptag_done_inv htag
  obtain ⟨ds, hdig, hb16⟩ := mapRes_done_iff.mp hmr
  obtain ⟨hr1, hall, hrest⟩ := digit_done_inv hdig
  obtain ⟨hne, hval, hle⟩ := bytesToU16_digits_some_inv hall hb16
  refine ⟨ds, by rw [hi, hr1]; simp, hne, hall, hval, hle, ?_⟩
  rcases hrest with hrest | ⟨b, rt, hrr, hbd, _⟩
  · exact Or.inl hrest
  · exact Or.inr ⟨b, rt, hrr, hbd⟩

theorem authority_done_inv {i r : Bytes} {ou : Option User} {h0 : Bytes} {op : Option Nat}
    (h : authority i = .Done r (ou, h0, op)) :
    ∃ t2 t3 t4,
      i = 47 :: 47 :: t2 ∧
      ((∃ us, ou = some us ∧ user t2 = .Done t3 us) ∨
        (ou = none ∧ t3 = t2 ∧ ∃ e, pcomplete user t2 = .Error e)) ∧
      token t3 = .Done t4 h0 ∧
      ((∃ p, op = some p ∧ portP t4 = .Done r p) ∨ (op = none ∧ r = t4)) := by
  obtain ⟨t2, tv, htag, h⟩ := pbind_done_iff.mp h
  obtain ⟨t3, ou2, hou, h⟩ := pbind_done_iff.mp h
  obtain ⟨t4, h2, htok, h⟩ := pbind_done_iff.mp h
  obtain ⟨t5, op2, hop, h⟩ := pbind_done_iff.mp h
  simp only [ppure_eval] at h
  cases h
  obtain ⟨htv, hi⟩ := ptag_done_inv htag
  refine ⟨t2, t3, t4, by rw [hi]; rfl, ?_, htok, ?_⟩
  · rcases popt_done_iff.mp hou with ⟨us, ho, hu⟩ | ⟨ho, hre, e, he⟩
    · exact Or.inl ⟨us, ho, pcomplete_done_iff.mp hu⟩
    · exact Or.inr ⟨ho, hre, e, he⟩
  · rcases popt_pcomplete_done_inv hop with ⟨p, ho, hp⟩ | ⟨ho, hre⟩
    · exact Or.inl ⟨p, ho, hp⟩
    · exact Or.inr ⟨ho, hre⟩

/-! Inversion and evaluation of parse_path and hash. -/

theorem parse_path_done_inv {i r pa : Bytes} (h : parse_path i = .Done r pa) :
    ∃ b pt, pa = b :: pt ∧ 255 - b ≠ 47 ∧ i = pa ++ r ∧
      (∀ y ∈ pa, y ∉ stopPath) ∧ utf8Valid pa = true ∧
      (r = [] ∨ ∃ c rt, r = c :: rt ∧ c ∈ stopPath) := by
  rcases i with _ | ⟨b, t⟩
  · simp only [parse_path] at h
    cases h
  · simp only [parse_path] at h
    by_cases hg : 255 - b = 47
    · rw [if_pos hg] at h
      cases h
    · rw [if_neg hg] at h
      obtain ⟨pa2, hpt, hid⟩ := pmap_done_iff.mp h
      have hpa : pa2 = pa := hid
      subst hpa
      obtain ⟨hi, hclean, hutf, hrest⟩ := tokGen_done_inv hpt
      have hpne : pa2 ≠ [] := by
        intro hp
        subst hp
        obtain ⟨hnil, _⟩ := tokGen_done_nil hpt
        cases hnil
      rcases pa2 with _ | ⟨b2, pt⟩
      · exact absurd rfl hpne
      · have hb2 : b = b2 := by
          have := congrArg (fun l => l.head? ) hi
          simpa using this
        subst hb2
        refine ⟨b, pt, rfl, hg, hi, hclean, hutf, ?_⟩
        rcases hrest with hrest | ⟨c, rt, hrr, hc, _⟩
        · exact Or.inl hrest
        · exact Or.inr ⟨c, rt, hrr, hc⟩

theorem parse_path_nil : parse_path [] = .Error (.Custom 1) := rfl

theorem parse_path_eval_mid {b : Nat} {pt : Bytes} {c : Nat} (rt : Bytes)
    (hg : 255 - b ≠ 47) (hclean : ∀ y ∈ b :: pt, y ∉ stopPath)
    (hutf : utf8Valid (b :: pt) = true) (hc : c ∈ stopPath) :
    parse_path ((b :: pt) ++ c :: rt) = .Done (c :: rt) (b :: pt) := by
  have htk : path_token ((b :: pt) ++ c :: rt) = .Done (c :: rt) (b :: pt) :=
    tokGen_eval_mid rt hclean (by simp) hc hutf
  simp only [parse_path, List.cons_append, if_neg hg]
  simp only [← List.cons_append, pmap, htk]
  rfl

theorem parse_path_eval_all {b : Nat} {pt : Bytes}
    (hg : 255 - b ≠ 47) (hclean : ∀ y ∈ b :: pt, y ∉ stopPath)
    (hutf : utf8Valid (b :: pt) = true) :
    parse_path (b :: pt) = .Done [] (b :: pt) := by
  have htk : path_token (b :: pt) = .Done [] (b :: pt) := tokGen_eval_all hclean hutf
  simp only [parse_path, if_neg hg, pmap, htk]
  rfl

theorem parse_path_eval_stop {b : Nat} (r : Bytes) (hg : 255 - b ≠ 47)
    (hb : b ∈ stopPath) : parse_path (b :: r) = .Error .IsNot := by
  have htk : path_token (b :: r) = .Error .IsNot := tokGen_eval_cons r hb
  simp only [parse_path, if_neg hg, pmap, htk]

theorem hash_done_inv {i r hs : Bytes} (h : hash i = .Done r hs) :
    i = 35 :: (hs ++ r) ∧ (∀ y ∈ hs, y ∉ stopHash) ∧ utf8Valid hs = true ∧
      (r = [] ∨ ∃ b rt, r = b :: rt ∧ b ∈ stopHash ∧ hs ≠ []) := by
  obtain ⟨r1, tv, htag, h⟩ := pbind_done_iff.mp h
  obtain ⟨r2, hv, htok, h⟩ := pbind_done_iff.mp h
  simp only [ppure_eval] at h
  cases h
  obtain ⟨htv, hi⟩ := ptag_done_inv htag
  obtain ⟨hr1, hclean, hutf, hrest⟩ := tokGen_done_inv htok
  exact ⟨by rw [hi, hr1]; rfl, hclean, hutf, hrest⟩

theorem hash_eval_all {hs : Bytes} (hclean : ∀ y ∈ hs, y ∉ stopHash)
    (hutf : utf8Valid hs = true) : hash (35 :: hs) = .Done [] hs := by
  have ht : ptag [35] (35 :: hs) = .Done hs [35] := ptag_self_append [35] hs
  have htk : hash_token hs = .Done [] hs := tokGen_eval_all hclean hutf
  simp only [hash, pbind, ht, htk, ppure_eval]

theorem popt_pcomplete_hash_nil : popt (pcomplete hash) [] = .Done [] none := by
  have ht : ptag [35] ([] : Bytes) = .Incomplete 1 := ptag_nil (by simp)
  have hh : hash [] = .Incomplete 1 := by
    simp only [hash, pbind, ht]
  simp only [popt, pcomplete, hh]

theorem popt_pcomplete_hash_ne {b : Nat} (r : Bytes) (hb : b ≠ 35) :
    popt (pcomplete hash) (b :: r) = .Done (b :: r) none := by
  have ht : ptag [35] (b :: r) = .Error .Tag := ptag_cons_ne [] r hb
  have hh : hash (b :: r) = .Error .Tag := by
    simp only [hash, pbind, ht]
  simp only [popt, pcomplete, hh]

/-! Lemmas about the query map: insert, collect, lookup. -/

theorem lookupKV_insertKV (m : List (Bytes × Bytes)) (kv : Bytes × Bytes) (k : Bytes) :
    lookupKV (insertKV m kv) k = if kv.1 = k then some kv.2 else lookupKV m k := by
  obtain ⟨kk, vv⟩ := kv
  induction m with
  | nil => simp [insertKV, lookupKV]
  | cons hd rest ih =>
    obtain ⟨k2, v2⟩ := hd
    by_cases h2 : k2 = kk
    · subst h2
      simp only [insertKV, if_pos rfl, lookupKV]
      by_cases hk : k2 = k <;> simp [lookupKV, hk]
    · simp only [insertKV, if_neg h2, lookupKV]
      by_cases hk : k2 = k
      · subst hk
        have : ¬ kk = k2 := fun he => h2 he.symm
        simp [this]
      · simp [hk, ih]

theorem collect_append_single (l : List (Bytes × Bytes)) (kv : Bytes × Bytes) :
    collect (l ++ [kv]) = insertKV (collect l) kv := by
  simp [collect, List.foldl_append]

theorem lookupKV_collect (l : List (Bytes × Bytes)) (k : Bytes) :
    lookupKV (collect l) k = lookupKV l.reverse k := by
  induction l using List.reverseRecOn with
  | nil => rfl
  | append_singleton l kv ih =>
    rw [collect_append_single, lookupKV_insertKV, List.reverse_append]
    obtain ⟨kk, vv⟩ := kv
    by_cases hk : kk = k <;> simp [lookupKV, hk, ih]

/-! Forward evaluation lemmas used to run the parser chain on known input. -/

theorem pbind_of_done {p : Bytes → IResult α} {i r : Bytes} {a : α}
    (h : p i = .Done r a) (f : α → Bytes → IResult β) : pbind p f i = f a r := by
  simp only [pbind, h]

theorem pbind_of_error {p : Bytes → IResult α} {i : Bytes} {e : ErrKind}
    (h : p i = .Error e) (f : α → Bytes → IResult β) : pbind p f i = .Error e := by
  simp only [pbind, h]

theorem pbind_of_incomplete {p : Bytes → IResult α} {i : Bytes} {n : Nat}
    (h : p i = .Incomplete n) (f : α → Bytes → IResult β) :
    pbind p f i = .Incomplete n := by
  simp only [pbind, h]

theorem popt_of_done {p : Bytes → IResult α} {i r : Bytes} {a : α}
    (h : p i = .Done r a) : popt p i = .Done r (some a) := by
  simp only [popt, h]

theorem popt_of_error {p : Bytes → IResult α} {i : Bytes} {e : ErrKind}
    (h : p i = .Error e) : popt p i = .Done i none := by
  simp only [popt, h]

theorem pcomplete_of_done {p : Bytes → IResult α} {i r : Bytes} {a : α}
    (h : p i = .Done r a) : pcomplete p i = .Done r a := by
  simp only [pcomplete, h]

theorem pcomplete_of_error {p : Bytes → IResult α} {i : Bytes} {e : ErrKind}
    (h : p i = .Error e) : pcomplete p i = .Error e := by
  simp only [pcomplete, h]

theorem pcomplete_of_incomplete {p : Bytes → IResult α} {i : Bytes} {n : Nat}
    (h : p i = .Incomplete n) : pcomplete p i = .Error .Complete := by
  simp only [pcomplete, h]

theorem pmap_of_done {p : Bytes → IResult α} {i r : Bytes} {a : α}
    (h : p i = .Done r a) (f : α → β) : pmap p f i = .Done r (f a) := by
  simp only [pmap, h]

theorem mapRes_of_done {p : Bytes → IResult α} {i r : Bytes} {a : α}
    (h : p i = .Done r a) (f : α → Option β) :
    mapRes p f i = (match f a with | some b => .Done r b | none => .Error .MapRes) := by
  simp only [mapRes, h]

/-! Evaluation facts about scheme, query, hash triggers. -/

theorem scheme_done_inv {i r s : Bytes} (h : scheme i = .Done r s) :
    ∃ rt, i = s ++ 58 :: rt ∧ r = 58 :: rt ∧ 58 ∉ s ∧ utf8Valid s = true := by
  obtain ⟨a, hp, hf⟩ := mapRes_done_iff.mp h
  obtain ⟨hsa, hva⟩ := fromUtf8_some_inv hf
  subst hsa
  obtain ⟨rt, hi, hr, hnotin⟩ := takeUntil_done_inv hp
  exact ⟨rt, hi, hr, hnotin, hva⟩

theorem scheme_eval {s : Bytes} (rt : Bytes) (hs : 58 ∉ s) (hv : utf8Valid s = true) :
    scheme (s ++ 58 :: rt) = .Done (58 :: rt) s := by
  have h1 := takeUntil_eval rt hs
  simp only [scheme, mapRes, h1, fromUtf8_valid hv]

theorem query_nil_incomplete : query [] = .Incomplete 1 := by
  have ht : ptag [63] ([] : Bytes) = .Incomplete 1 := ptag_nil (by simp)
  simp only [query, pmap, pbind, ht]

theorem query_cons_ne {b : Nat} (r : Bytes) (hb : b ≠ 63) :
    query (b :: r) = .Error .Tag := by
  have ht : ptag [63] (b :: r) = .Error .Tag := ptag_cons_ne [] r hb
  simp only [query, pmap, pbind, ht]

theorem popt_pcomplete_query_nil : popt (pcomplete query) [] = .Done [] none := by
  simp only [popt, pcomplete, query_nil_incomplete]

theorem popt_pcomplete_query_ne {b : Nat} (r : Bytes) (hb : b ≠ 63) :
    popt (pcomplete query) (b :: r) = .Done (b :: r) none := by
  simp only [popt, pcomplete, query_cons_ne r hb]

theorem mkURI_scheme (s : Bytes) (oa : Option (Option User × Bytes × Option Nat))
    (op : Option Bytes) (oq : Option (List (Bytes × Bytes))) (oh : Option Bytes) :
    (mkURI s oa op oq oh).scheme = s := by
  cases oa <;> rfl

theorem parse_uri_ok_inv {i : Bytes} {u : URI} (h : parse_uri i = .ok u) :
    uri i = .Done [] u := by
  cases hu : uri i with
  | Done rem v =>
    simp only [parse_uri, hu] at h
    by_cases hrem : rem = []
    · subst hrem
      rw [if_pos rfl] at h
      cases h
      rfl
    · rw [if_neg hrem] at h
      cases h
  | Error e => simp only [parse_uri, hu] at h; cases h
  | Incomplete n => simp only [parse_uri, hu] at h; cases h

/-! Claim theorems. -/

/-- Claim C2 (code bug): the source intends the path to be attempted only
when the next byte is '/', but the guard is written
! i[0] as char == '/', which Rust parses as ((!i[0]) as char) == '/', a test
whether the first byte is 0xD0 (208).  Evaluating the code at the failing
inputs: parse_path accepts "a", a path that does not begin with '/', and the
full parser accepts "http:a" with path "a"; the guard instead rejects a
leading 0xD0 byte; the empty path is still rejected. -/
theorem c2_path_guard_bug :
    parse_uri (ascii "http:a") =
      .ok { scheme := ascii "http", user := none, host := none, port := none,
            path := some (ascii "a"), query := none, hash := none } ∧
    parse_path (ascii "a") = .Done [] (ascii "a") ∧
    (ascii "a").head? ≠ some 47 ∧
    parse_path [] = .Error (.Custom 1) ∧
    parse_path [208, 97] = .Error (.Custom 1) ∧
    parse_path (ascii "/a") = .Done [] (ascii "/a") := by
  refine ⟨rfl, rfl, by decide, rfl, rfl, rfl⟩

/-- Claim C3, counterexample: parsing "nekde/nekdo" (an input with no colon)
returns the Incomplete error, not the Parse (Malformed) classification the
claim requires. -/
theorem c3_counterexample :
    parse_uri (ascii "nekde/nekdo") = .error .Incomplete ∧
    isParseError (parse_uri (ascii "nekde/nekdo")) = false := ⟨rfl, rfl⟩

/-- Claim C3, amended: every input containing no ':' byte fails with the
Incomplete error (take_until! reports Incomplete when its delimiter is
absent), so Incomplete does occur on fully materialized inputs. -/
theorem c3_no_colon_incomplete (i : Bytes) (h : 58 ∉ i) :
    parse_uri i = .error .Incomplete := by
  obtain ⟨n, ht⟩ := takeUntil_absent h
  have hs : scheme i = .Incomplete n := by
    simp only [scheme, mapRes, ht]
  have hu : uri i = .Incomplete n := by
    rw [uri_eq_chain]
    exact pbind_of_incomplete hs _
  simp only [parse_uri, hu]

/-- Witness for c3_no_colon_incomplete at the concrete input "abc". -/
theorem c3_witness : parse_uri (ascii "abc") = .error .Incomplete :=
  c3_no_colon_incomplete (ascii "abc") (by decide)

/-- Claim C4, counterexample: for the input "http://h?" the '?' is reached
and no valid pair follows, yet the whole parse succeeds and produces a query
field that is an empty mapping. -/
theorem c4_counterexample :
    parse_uri (ascii "http://h?") =
      .ok { scheme := ascii "http", user := none, host := some (ascii "h"),
            port := none, path := none, query := some [], hash := none } := rfl

/-- Claim C4, amended: when a '?' is reached by the sequencer and no valid
key=value pair follows it, the separated pair list is empty and the parse
yields query = Some(empty mapping); the parse succeeds when the input ends
at that point, and fails (as NotFullyParsed, from the unconsumed suffix, not
as a query error) when bytes remain. -/
theorem c4_empty_query_mapping :
    parse_uri (ascii "http://h?") =
      .ok { scheme := ascii "http", user := none, host := some (ascii "h"),
            port := none, path := none, query := some [], hash := none } ∧
    parse_uri (ascii "http://h?=v") = .error .NotFullyParsed ∧
    parse_uri (ascii "http://h?x") = .error .NotFullyParsed := ⟨rfl, rfl, rfl⟩

/-- Claim C5, counterexample: parsing "://h" succeeds with an empty scheme,
because take_until!(":") accepts a zero-length match. -/
theorem c5_counterexample :
    parse_uri (ascii "://h") =
      .ok { scheme := [], user := none, host := some (ascii "h"), port := none,
            path := none, query := none, hash := none } ∧
    ([] : Bytes).isEmpty = true := ⟨rfl, rfl⟩

/-- Claim C5, amended: the scheme of a successfully parsed URI is the input
prefix before the first ':' and therefore never contains a ':' byte, but it
may be empty. -/
theorem c5_scheme_no_colon (i : Bytes) (u : URI) (h : parse_uri i = .ok u) :
    58 ∉ u.scheme := by
  have hu := parse_uri_ok_inv h
  obtain ⟨s, r2, oa, r3, op, r4, oq, r5, oh, hs, _, _, _, _, hmk⟩ := uri_done_elim hu
  obtain ⟨rt, _, _, hnotin, _⟩ := scheme_done_inv hs
  rw [hmk, mkURI_scheme]
  exact hnotin

/-- Witness for c5_scheme_no_colon at the concrete input "a:b". -/
theorem c5_witness :
    58 ∉ ({ scheme := ascii "a", user := none, host := none, port := none,
            path := some (ascii "b"), query := none, hash := none } : URI).scheme :=
  c5_scheme_no_colon (ascii "a:b") _ rfl

/-- Claim C6 (confirmed): parse_uri succeeds exactly when the component
parsers consume the entire input, and an internal success that leaves a
nonempty suffix is reported as exactly the NotFullyParsed error. -/
theorem c6_not_fully_parsed (i : Bytes) :
    (∀ u, parse_uri i = .ok u → uri i = .Done [] u) ∧
    (∀ rem u, uri i = .Done rem u → rem ≠ [] → parse_uri i = .error .NotFullyParsed) := by
  constructor
  · exact fun u h => parse_uri_ok_inv h
  · intro rem u h hne
    simp only [parse_uri, h, if_neg hne]

/-- Witness for c6_not_fully_parsed at the concrete input "http://h[]", on
which the parser stops in front of "[]". -/
theorem c6_witness :
    parse_uri (ascii "http://h[]") = .error .NotFullyParsed :=
  (c6_not_fully_parsed (ascii "http://h[]")).2 (ascii "[]")
    { scheme := ascii "http", user := none, host := some (ascii "h"), port := none,
      path := none, query := none, hash := none } rfl (by decide)

/-- Claim C7, counterexample: the input "http:///p" has "//" directly after
the scheme colon, yet the parse succeeds with user, host and port all None
(the authority attempt fails on the third '/' and opt! backtracks the whole
authority, including the "//"). -/
theorem c7_counterexample :
    parse_uri (ascii "http:///p") =
      .ok { scheme := ascii "http", user := none, host := none, port := none,
            path := some (ascii "///p"), query := none, hash := none } ∧
    (ascii "http:///p").drop 5 = 47 :: 47 :: ascii "/p" := ⟨rfl, by decide⟩

/-- Claim C7, amended: user, host and port are all None together exactly when
the authority sub-parser did not succeed (not when no "//" was present: a
present "//" can be backtracked); whenever an authority was parsed, host is
Some. -/
theorem c7_all_none_together (i rem : Bytes) (u : URI) (h : uri i = .Done rem u) :
    (u.host = none → u.user = none ∧ u.port = none) ∧
    (u.host ≠ none → ∃ h0, u.host = some h0) := by
  obtain ⟨s, r2, oa, r3, op, r4, oq, r5, oh, _, _, _, _, _, hmk⟩ := uri_done_elim h
  subst hmk
  cases oa with
  | none =>
    constructor
    · intro _
      exact ⟨rfl, rfl⟩
    · intro hne
      exact absurd rfl hne
  | some a =>
    constructor
    · intro hh
      cases hh
    · intro _
      exact ⟨a.2.1, rfl⟩

/-- Witness for c7_all_none_together at the concrete input "http:///p". -/
theorem c7_witness :
    ({ scheme := ascii "http", user := none, host := none, port := none,
       path := some (ascii "///p"), query := none, hash := none } : URI).user = none ∧
    ({ scheme := ascii "http", user := none, host := none, port := none,
       path := some (ascii "///p"), query := none, hash := none } : URI).port = none :=
  (c7_all_none_together (ascii "http:///p") []
    { scheme := ascii "http", user := none, host := none, port := none,
      path := some (ascii "///p"), query := none, hash := none } rfl).1 rfl

/-- Claim C8 (confirmed): the port is parsed from one or more decimal digits
and converted by u16::from_str_radix; for any nonempty digit string ds, the
input "http://h:" followed by ds parses with port equal to the exact decimal
value of ds when that value fits in 16 bits, and is rejected (the failed port
attempt backtracks, leaving ":" ++ ds unconsumed, hence NotFullyParsed) when
the value exceeds 65535 — never clamped or truncated. -/
theorem c8_port_u16 (ds : Bytes) (hne : ds ≠ []) (hd : ∀ y ∈ ds, isDigitByte y = true) :
    (natOfDigits ds ≤ 65535 →
      parse_uri (ascii "http://h:" ++ ds) =
        .ok { scheme := ascii "http", user := none, host := some (ascii "h"),
              port := some (natOfDigits ds), path := none, query := none,
              hash := none }) ∧
    (65535 < natOfDigits ds →
      parse_uri (ascii "http://h:" ++ ds) = .error .NotFullyParsed) := by
  have hin : ascii "http://h:" ++ ds =
      [104, 116, 116, 112] ++ 58 :: (47 :: 47 :: (104 :: 58 :: ds)) := rfl
  have hdcl : ∀ y ∈ ds, y ∉ stopToken := fun y hy => digit_not_stopToken (hd y hy)
  have hdutf : utf8Valid ds = true := utf8Valid_ascii fun y hy => digit_byte_le127 (hd y hy)
  have hs : scheme ([104, 116, 116, 112] ++ 58 :: (47 :: 47 :: (104 :: 58 :: ds))) =
      .Done (58 :: (47 :: 47 :: (104 :: 58 :: ds))) [104, 116, 116, 112] :=
    scheme_eval _ (by decide) (by decide)
  have ht : ptag [58] (58 :: (47 :: 47 :: (104 :: 58 :: ds))) =
      .Done (47 :: 47 :: (104 :: 58 :: ds)) [58] :=
    ptag_self_append [58] (47 :: 47 :: (104 :: 58 :: ds))
  have ht2 : ptag [47, 47] (47 :: 47 :: (104 :: 58 :: ds)) =
      .Done (104 :: 58 :: ds) [47, 47] :=
    ptag_self_append [47, 47] (104 :: 58 :: ds)
  have htokh : token (104 :: 58 :: ds) = .Done (58 :: ds) [104] :=
    tokGen_eval_mid (t := [104]) (b := 58) ds
      (by decide) (by decide) (by decide) (by decide)
  have htokds : token ds = .Done [] ds := tokGen_eval_all hdcl hdutf
  have h58ds : ptag [58] (58 :: ds) = .Done ds [58] := ptag_self_append [58] ds
  have hpw : passwordP (58 :: ds) = .Done [] ds := by
    simp only [passwordP, pbind_of_done h58ds, pbind_of_done htokds, ppure_eval]
  have h64nil : ptag [64] ([] : Bytes) = .Incomplete 1 := ptag_nil (by simp)
  have huser : user (104 :: 58 :: ds) = .Incomplete 1 := by
    simp only [user, pbind_of_done htokh, pbind_of_done (popt_of_done hpw),
      pbind_of_incomplete h64nil]
  have huserfail : popt (pcomplete user) (104 :: 58 :: ds) = .Done (104 :: 58 :: ds) none :=
    popt_of_error (pcomplete_of_incomplete huser)
  have hdg : digit ds = .Done [] ds := digit_eval_all hd
  constructor
  · intro hle
    have hb16 : bytesToU16 ds = some (natOfDigits ds) := by
      rw [bytesToU16_digits hd hne, if_pos hle]
    have hmr : mapRes digit bytesToU16 ds = .Done [] (natOfDigits ds) := by
      rw [mapRes_of_done hdg bytesToU16, hb16]
    have hport : portP (58 :: ds) = .Done [] (natOfDigits ds) := by
      simp only [portP, pbind_of_done h58ds, pbind_of_done hmr, ppure_eval]
    have hauth : authority (47 :: 47 :: (104 :: 58 :: ds)) =
        .Done [] (none, [104], some (natOfDigits ds)) := by
      simp only [authority, pbind_of_done ht2, pbind_of_done huserfail,
        pbind_of_done htokh,
        pbind_of_done (popt_of_done (pcomplete_of_done hport)), ppure_eval]
    have huri : uri (ascii "http://h:" ++ ds) =
        .Done [] (mkURI [104, 116, 116, 112] (some (none, [104], some (natOfDigits ds)))
          none none none) := by
      rw [hin, uri_eq_chain]
      simp only [pbind_of_done hs, pbind_of_done ht,
        pbind_of_done (popt_of_done hauth),
        pbind_of_done (popt_of_error parse_path_nil),
        pbind_of_done popt_pcomplete_query_nil,
        pbind_of_done popt_pcomplete_hash_nil, ppure_eval]
    simp only [parse_uri, huri, if_pos rfl]
    rfl
  · intro hgt
    have hb16 : bytesToU16 ds = none := by
      rw [bytesToU16_digits hd hne, if_neg (by omega)]
    have hmr : mapRes digit bytesToU16 ds = .Error .MapRes := by
      rw [mapRes_of_done hdg bytesToU16, hb16]
    have hport : portP (58 :: ds) = .Error .MapRes := by
      simp only [portP, pbind_of_done h58ds, pbind_of_error hmr]
    have hauth : authority (47 :: 47 :: (104 :: 58 :: ds)) =
        .Done (58 :: ds) (none, [104], none) := by
      simp only [authority, pbind_of_done ht2, pbind_of_done huserfail,
        pbind_of_done htokh,
        pbind_of_done (popt_of_error (pcomplete_of_error hport)), ppure_eval]
    have hpath : parse_path (58 :: ds) = .Error .IsNot :=
      parse_path_eval_stop ds (by decide) (by decide)
    have huri : uri (ascii "http://h:" ++ ds) =
        .Done (58 :: ds) (mkURI [104, 116, 116, 112] (some (none, [104], none))
          none none none) := by
      rw [hin, uri_eq_chain]
      simp only [pbind_of_done hs, pbind_of_done ht,
        pbind_of_done (popt_of_done hauth),
        pbind_of_done (popt_of_error hpath),
        pbind_of_done (popt_pcomplete_query_ne (b := 58) ds (by decide)),
        pbind_of_done (popt_pcomplete_hash_ne (b := 58) ds (by decide)), ppure_eval]
    simp only [parse_uri, huri]
    rw [if_neg (by simp)]

/-- Witness for c8_port_u16 at the digit strings "8080" (in range) and
"99999" (out of range). -/
theorem c8_witness :
    parse_uri (ascii "http://h:" ++ ascii "8080") =
      .ok { scheme := ascii "http", user := none, host := some (ascii "h"),
            port := some (natOfDigits (ascii "8080")), path := none, query := none,
            hash := none } ∧
    parse_uri (ascii "http://h:" ++ ascii "99999") = .error .NotFullyParsed :=
  ⟨(c8_port_u16 (ascii "8080") (by decide) (by decide)).1 (by decide),
   (c8_port_u16 (ascii "99999") (by decide) (by decide)).2 (by decide)⟩

/-- Claim C9 (confirmed): pairs are folded into the mapping left to right
with insert-overwrite, so a lookup in the collected mapping returns the value
of the last pair with that key (lookup in the reversed pair list), and in
particular "?a=1&a=2" parses to the mapping with single entry a ↦ "2". -/
theorem c9_last_write_wins :
    (∀ (l : List (Bytes × Bytes)) (k : Bytes),
      lookupKV (collect l) k = lookupKV l.reverse k) ∧
    parse_uri (ascii "http://h?a=1&a=2") =
      .ok { scheme := ascii "http", user := none, host := some (ascii "h"),
            port := none, path := none,
            query := some [(ascii "a", ascii "2")], hash := none } :=
  ⟨lookupKV_collect, rfl⟩

/-- Claim C10, counterexample: "http://h#" parses with an empty fragment and
"http://" parses with an empty host, because is_not! returns an empty match
at end of input; so host and hash, when present, are not always nonempty. -/
theorem c10_counterexample :
    parse_uri (ascii "http://h#") =
      .ok { scheme := ascii "http", user := none, host := some (ascii "h"),
            port := none, path := none, query := none, hash := some [] } ∧
    parse_uri (ascii "http://") =
      .ok { scheme := ascii "http", user := none, host := some [], port := none,
            path := none, query := none, hash := none } := ⟨rfl, rfl⟩

/-- Claim C10, amended: of the optional text components, user.name and
user.password (when present) are always nonempty, because the token scan for
them is followed by a mandatory delimiter; host and the fragment can be empty
when their scan starts at end of input. -/
theorem c10_nonempty_tokens (i rem : Bytes) (u : URI) (us : User)
    (h : uri i = .Done rem u) (hus : u.user = some us) :
    us.name ≠ [] ∧ ∀ p, us.password = some p → p ≠ [] := by
  obtain ⟨s, r2, oa, r3, op, r4, oq, r5, oh, _, ha, _, _, _, hmk⟩ := uri_done_elim h
  subst hmk
  cases oa with
  | none => cases hus
  | some a =>
    obtain ⟨ou, h0, opn⟩ := a
    have hou : ou = some us := hus
    subst hou
    rcases popt_done_iff.mp ha with ⟨a2, hoa2, hauth⟩ | ⟨hoa2, _, _, _⟩
    · have ha2 : a2 = (some us, h0, opn) := by
        injection hoa2 with hh
        exact hh.symm
      subst ha2
      obtain ⟨t2, t3, t4, _, huser, _, _⟩ := authority_done_inv hauth
      rcases huser with ⟨us2, hus2, hud⟩ | ⟨hnone, _, _⟩
      · have : us2 = us := by injection hus2 with hh; exact hh.symm
        subst this
        obtain ⟨hname, _, _, hpw⟩ := user_done_inv hud
        refine ⟨hname, fun p hp => ?_⟩
        rw [hp] at hpw
        simp only [] at hpw
        exact hpw.1
      · cases hnone
    · cases hoa2

/-! Boundary-locality: machinery to replay a failed authority attempt on the
rendered text, which differs from the original input only past the start of
the query (pair order) while agreeing on the '?' / '#' boundaries. -/

theorem popt_of_incomplete {p : Bytes → IResult α} {i : Bytes} {n : Nat}
    (h : p i = .Incomplete n) : popt p i = .Incomplete n := by
  simp only [popt, h]

theorem endsLike_cons {X X2 : Bytes} (h : EndsLike X X2) :
    (X = [] ∧ X2 = []) ∨
      (∃ b xt xt2, (b = 63 ∨ b = 35) ∧ X = b :: xt ∧ X2 = b :: xt2) := by
  rcases h with ⟨h1, h2⟩ | ⟨b, hb, hh1, hh2⟩
  · exact Or.inl ⟨h1, h2⟩
  · rcases X with _ | ⟨x0, xt⟩
    · cases hh1
    · rcases X2 with _ | ⟨y0, xt2⟩
      · cases hh2
      · have hx0 : x0 = b := by injection hh1
        have hy0 : y0 = b := by injection hh2
        exact Or.inr ⟨b, xt, xt2, hb, by rw [hx0], by rw [hy0]⟩

theorem isLocal_ppure (a : α) : IsLocal (ppure a) := by
  intro A X X2 hX
  exact Or.inl ⟨A, a, rfl, rfl⟩

theorem isLocal_pbind {p : Bytes → IResult α} {f : α → Bytes → IResult β}
    (hp : IsLocal p) (hf : ∀ a, IsLocal (f a)) : IsLocal (pbind p f) := by
  intro A X X2 hX
  rcases hp A X X2 hX with ⟨C, v, h1, h2⟩ | ⟨e, h1, h2⟩ | ⟨n, n2, h1, h2⟩
  · rw [pbind_of_done h1, pbind_of_done h2]
    exact hf v C X X2 hX
  · rw [pbind_of_error h1, pbind_of_error h2]
    exact Or.inr (Or.inl ⟨e, rfl, rfl⟩)
  · rw [pbind_of_incomplete h1, pbind_of_incomplete h2]
    exact Or.inr (Or.inr ⟨n, n2, rfl, rfl⟩)

theorem isLocal_popt {p : Bytes → IResult α} (hp : IsLocal p) : IsLocal (popt p) := by
  intro A X X2 hX
  rcases hp A X X2 hX with ⟨C, v, h1, h2⟩ | ⟨e, h1, h2⟩ | ⟨n, n2, h1, h2⟩
  · rw [popt_of_done h1, popt_of_done h2]
    exact Or.inl ⟨C, some v, rfl, rfl⟩
  · rw [popt_of_error h1, popt_of_error h2]
    exact Or.inl ⟨A, none, rfl, rfl⟩
  · rw [popt_of_incomplete h1, popt_of_incomplete h2]
    exact Or.inr (Or.inr ⟨n, n2, rfl, rfl⟩)

theorem isLocal_pcomplete {p : Bytes → IResult α} (hp : IsLocal p) :
    IsLocal (pcomplete p) := by
  intro A X X2 hX
  rcases hp A X X2 hX with ⟨C, v, h1, h2⟩ | ⟨e, h1, h2⟩ | ⟨n, n2, h1, h2⟩
  · rw [pcomplete_of_done h1, pcomplete_of_done h2]
    exact Or.inl ⟨C, v, rfl, rfl⟩
  · rw [pcomplete_of_error h1, pcomplete_of_error h2]
    exact Or.inr (Or.inl ⟨e, rfl, rfl⟩)
  · rw [pcomplete_of_incomplete h1, pcomplete_of_incomplete h2]
    exact Or.inr (Or.inl ⟨.Complete, rfl, rfl⟩)

theorem isLocal_mapRes {p : Bytes → IResult α} {f : α → Option β} (hp : IsLocal p) :
    IsLocal (mapRes p f) := by
  intro A X X2 hX
  rcases hp A X X2 hX with ⟨C, v, h1, h2⟩ | ⟨e, h1, h2⟩ | ⟨n, n2, h1, h2⟩
  · rw [mapRes_of_done h1 f, mapRes_of_done h2 f]
    cases hf : f v with
    | some b => exact Or.inl ⟨C, b, rfl, rfl⟩
    | none => exact Or.inr (Or.inl ⟨.MapRes, rfl, rfl⟩)
  · simp only [mapRes, h1, h2]
    exact Or.inr (Or.inl ⟨e, rfl, rfl⟩)
  · simp only [mapRes, h1, h2]
    exact Or.inr (Or.inr ⟨n, n2, rfl, rfl⟩)

theorem isLocal_isNot {st : Bytes} (h63 : 63 ∈ st) (h35 : 35 ∈ st) :
    IsLocal (isNot st) := by
  intro A X X2 hX
  rcases hfA : findIdxP (fun y => st.contains y) A with _ | n
  · have hAcl : ∀ y ∈ A, y ∉ st :=
      fun y hy => not_mem_of_contains_false (findIdxP_none_inv hfA y hy)
    rcases endsLike_cons hX with ⟨hX1, hX2⟩ | ⟨b, xt, xt2, hb, hX1, hX2⟩
    · subst hX1 hX2
      have hall : isNot st A = .Done [] A := isNot_eval_all hAcl
      refine Or.inl ⟨[], A, ?_, ?_⟩ <;> simpa using hall
    · subst hX1 hX2
      have hbst : b ∈ st := by rcases hb with hb | hb <;> subst hb <;> assumption
      rcases hA : A with _ | ⟨a0, A1⟩
      · refine Or.inr (Or.inl ⟨.IsNot, ?_, ?_⟩) <;>
          simpa using isNot_eval_cons _ hbst
      · rw [← hA]
        have hne : A ≠ [] := by rw [hA]; simp
        refine Or.inl ⟨[], A, ?_, ?_⟩ <;>
          simpa using isNot_eval_mid _ hAcl hne hbst
  · obtain ⟨a1, x, a2, hA, hlen, hcl, hx⟩ := findIdxP_some_split hfA
    subst hA
    have hxst : x ∈ st := mem_of_contains_true hx
    have hclm : ∀ y ∈ a1, y ∉ st := fun y hy => not_mem_of_contains_false (hcl y hy)
    by_cases ha1 : a1 = []
    · subst ha1
      refine Or.inr (Or.inl ⟨.IsNot, ?_, ?_⟩) <;>
        simpa using isNot_eval_cons (a2 ++ _) hxst
    · refine Or.inl ⟨x :: a2, a1, ?_, ?_⟩ <;>
      · rw [List.append_assoc, List.cons_append]
        exact isNot_eval_mid _ hclm ha1 hxst

theorem isLocal_digit : IsLocal digit := by
  intro A X X2 hX
  rcases hfA : findIdxP (fun y => !isDigitByte y) A with _ | n
  · have hAd : ∀ y ∈ A, isDigitByte y = true := by
      intro y hy
      have := findIdxP_none_inv hfA y hy
      simpa using this
    rcases endsLike_cons hX with ⟨hX1, hX2⟩ | ⟨b, xt, xt2, hb, hX1, hX2⟩
    · subst hX1 hX2
      have hall : digit A = .Done [] A := digit_eval_all hAd
      refine Or.inl ⟨[], A, ?_, ?_⟩ <;> simpa using hall
    · subst hX1 hX2
      have hbd : isDigitByte b = false := by
        rcases hb with hb | hb <;> subst hb <;> rfl
      rcases hA : A with _ | ⟨a0, A1⟩
      · refine Or.inr (Or.inl ⟨.Digit, ?_, ?_⟩) <;>
          simpa using digit_eval_cons _ hbd
      · rw [← hA]
        have hne : A ≠ [] := by rw [hA]; simp
        refine Or.inl ⟨[], A, ?_, ?_⟩ <;>
          simpa using digit_eval_mid _ hAd hne hbd
  · obtain ⟨a1, x, a2, hA, hlen, hcl, hx⟩ := findIdxP_some_split hfA
    subst hA
    have hxd : isDigitByte x = false := by simpa using hx
    have hclm : ∀ y ∈ a1, isDigitByte y = true := by
      intro y hy
      have := hcl y hy
      simpa using this
    by_cases ha1 : a1 = []
    · subst ha1
      refine Or.inr (Or.inl ⟨.Digit, ?_, ?_⟩) <;>
        simpa using digit_eval_cons (a2 ++ _) hxd
    · refine Or.inl ⟨x :: a2, a1, ?_, ?_⟩ <;>
      · rw [List.append_assoc, List.cons_append]
        exact digit_eval_mid _ hclm ha1 hxd

theorem isLocal_ptag1 {c : Nat} (hc63 : c ≠ 63) (hc35 : c ≠ 35) :
    IsLocal (ptag [c]) := by
  intro A X X2 hX
  rcases A with _ | ⟨a, A2⟩
  · rcases endsLike_cons hX with ⟨hX1, hX2⟩ | ⟨b, xt, xt2, hb, hX1, hX2⟩
    · subst hX1 hX2
      refine Or.inr (Or.inr ⟨1, 1, ?_, ?_⟩) <;>
        simpa using ptag_nil (t := [c]) (by simp)
    · subst hX1 hX2
      have hbc : b ≠ c := by
        rcases hb with hb | hb <;> subst hb <;> exact fun he => by
          first
          | exact hc63 he.symm
          | exact hc35 he.symm
      refine Or.inr (Or.inl ⟨.Tag, ?_, ?_⟩) <;>
        simpa using ptag_cons_ne [] _ hbc
  · by_cases hac : a = c
    · subst hac
      refine Or.inl ⟨A2, [a], ?_, ?_⟩ <;>
      · show ptag [a] ([a] ++ (A2 ++ _)) = _
        rw [ptag_self_append]
    · refine Or.inr (Or.inl ⟨.Tag, ?_, ?_⟩) <;>
        simpa using ptag_cons_ne [] _ hac

theorem isLocal_ptag2 {c d : Nat} (hc63 : c ≠ 63) (hc35 : c ≠ 35)
    (hd63 : d ≠ 63) (hd35 : d ≠ 35) : IsLocal (ptag [c, d]) := by
  intro A X X2 hX
  rcases A with _ | ⟨a1, A2⟩
  · rcases endsLike_cons hX with ⟨hX1, hX2⟩ | ⟨b, xt, xt2, hb, hX1, hX2⟩
    · subst hX1 hX2
      refine Or.inr (Or.inr ⟨2, 2, ?_, ?_⟩) <;>
        simpa using ptag_nil (t := [c, d]) (by simp)
    · subst hX1 hX2
      have hbc : b ≠ c := by
        rcases hb with hb | hb <;> subst hb <;> exact fun he => by
          first
          | exact hc63 he.symm
          | exact hc35 he.symm
      refine Or.inr (Or.inl ⟨.Tag, ?_, ?_⟩) <;>
        simpa using ptag_cons_ne [d] _ hbc
  · by_cases hac : a1 = c
    · subst hac
      rcases A2 with _ | ⟨a2, A3⟩
      · rcases endsLike_cons hX with ⟨hX1, hX2⟩ | ⟨b, xt, xt2, hb, hX1, hX2⟩
        · subst hX1 hX2
          refine Or.inr (Or.inr ⟨2, 2, ?_, ?_⟩) <;>
            simpa using ptag_two_prefix (c := a1) (d := d)
        · subst hX1 hX2
          have hbd : b ≠ d := by
            rcases hb with hb | hb <;> subst hb <;> exact fun he => by
              first
              | exact hd63 he.symm
              | exact hd35 he.symm
          refine Or.inr (Or.inl ⟨.Tag, ?_, ?_⟩) <;>
            simpa using ptag_two_ne _ hbd
      · by_cases had : a2 = d
        · subst had
          refine Or.inl ⟨A3, [a1, a2], ?_, ?_⟩ <;>
          · show ptag [a1, a2] ([a1, a2] ++ (A3 ++ _)) = _
            rw [ptag_self_append]
        · refine Or.inr (Or.inl ⟨.Tag, ?_, ?_⟩) <;>
            simpa using ptag_two_ne (A3 ++ _) had
    · refine Or.inr (Or.inl ⟨.Tag, ?_, ?_⟩) <;>
        simpa using ptag_cons_ne [d] _ hac

theorem isLocal_token : IsLocal token :=
  isLocal_mapRes (isLocal_isNot (by decide) (by decide))

theorem isLocal_passwordP : IsLocal passwordP :=
  isLocal_pbind (isLocal_ptag1 (by decide) (by decide)) fun _ =>
    isLocal_pbind isLocal_token fun p => isLocal_ppure p

theorem isLocal_user : IsLocal user :=
  isLocal_pbind isLocal_token fun n =>
    isLocal_pbind (isLocal_popt isLocal_passwordP) fun pw =>
      isLocal_pbind (isLocal_ptag1 (by decide) (by decide)) fun _ =>
        isLocal_ppure { name := n, password := pw }

theorem isLocal_portP : IsLocal portP :=
  isLocal_pbind (isLocal_ptag1 (by decide) (by decide)) fun _ =>
    isLocal_pbind (isLocal_mapRes isLocal_digit) fun p => isLocal_ppure p

theorem isLocal_authority : IsLocal authority :=
  isLocal_pbind (isLocal_ptag2 (by decide) (by decide) (by decide) (by decide)) fun _ =>
    isLocal_pbind (isLocal_popt (isLocal_pcomplete isLocal_user)) fun ou =>
      isLocal_pbind isLocal_token fun h =>
        isLocal_pbind (isLocal_popt (isLocal_pcomplete isLocal_portP)) fun op =>
          isLocal_ppure (ou, h, op)

/-- Replay of a failed authority attempt: if the authority parser fails with
an Error on the original tail, it fails with the same Error on a tail with
the same prefix and an EndsLike remainder. -/
theorem authority_error_replay {A X X2 : Bytes} {e : ErrKind}
    (hX : EndsLike X X2) (h : authority (A ++ X) = .Error e) :
    authority (A ++ X2) = .Error e := by
  rcases isLocal_authority A X X2 hX with ⟨C, v, h1, h2⟩ | ⟨e2, h1, h2⟩ | ⟨n, n2, h1, h2⟩
  · rw [h] at h1
    cases h1
  · rw [h] at h1
    cases h1
    exact h2
  · rw [h] at h1
    cases h1

/-- Witness for c10_nonempty_tokens at the concrete input "http://u:p@h". -/
theorem c10_witness :
    ({ name := ascii "u", password := some (ascii "p") } : User).name ≠ [] ∧
    ∀ p, ({ name := ascii "u", password := some (ascii "p") } : User).password = some p →
      p ≠ [] :=
  c10_nonempty_tokens (ascii "http://u:p@h") []
    { scheme := ascii "http",
      user := some { name := ascii "u", password := some (ascii "p") },
      host := some (ascii "h"), port := none, path := none, query := none, hash := none }
    { name := ascii "u", password := some (ascii "p") } rfl rfl




/-! EndsLike utilities, error replay through pcomplete, and splitting lemmas
around the '@' byte (used to replay a failed user-info attempt on the rendered
authority when the port digits are re-rendered canonically). -/

theorem endsLike_symm {X X2 : Bytes} (h : EndsLike X X2) : EndsLike X2 X := by
  rcases h with ⟨h1, h2⟩ | ⟨b, hb, hh1, hh2⟩
  · exact Or.inl ⟨h2, h1⟩
  · exact Or.inr ⟨b, hb, hh2, hh1⟩

theorem endsLike_nil {X2 : Bytes} (h : EndsLike [] X2) : X2 = [] := by
  rcases h with ⟨h1, h2⟩ | ⟨b, hb, hh1, hh2⟩
  · exact h2
  · cases hh1

theorem pcomplete_error_replay {p : Bytes → IResult α} (hp : IsLocal p)
    {A X X2 : Bytes} {e : ErrKind} (hX : EndsLike X X2)
    (h : pcomplete p (A ++ X) = .Error e) :
    ∃ e2, pcomplete p (A ++ X2) = .Error e2 := by
  rcases hp A X X2 hX with ⟨C, v, h1, h2⟩ | ⟨e2, h1, h2⟩ | ⟨n, n2, h1, h2⟩
  · rw [pcomplete_of_done h1] at h
    cases h
  · exact ⟨e2, pcomplete_of_error h2⟩
  · exact ⟨.Complete, pcomplete_of_incomplete h2⟩

theorem utf8Valid_ascii_append {D w : Bytes} (hD : ∀ y ∈ D, y ≤ 127) :
    utf8Valid (D ++ w) = utf8Valid w := by
  induction D with
  | nil => rfl
  | cons b r ih =>
    rw [List.cons_append, utf8Valid_cons_le127 _ (hD b (by simp)),
      ih fun y hy => hD y (by simp [hy])]

theorem clean_split_unique {st : Bytes} {z1 : Bytes} :
    ∀ {w1 : Bytes} {c d : Nat} {z2 w2 : Bytes},
    z1 ++ c :: z2 = w1 ++ d :: w2 → (∀ y ∈ z1, y ∉ st) → (∀ y ∈ w1, y ∉ st) →
    c ∈ st → d ∈ st → z1 = w1 ∧ c = d ∧ z2 = w2 := by
  induction z1 with
  | nil =>
    intro w1 c d z2 w2 he hz hw hc hd
    rcases w1 with _ | ⟨a, w1t⟩
    · simp only [List.nil_append] at he
      have h1 : c = d := by injection he
      have h2 : z2 = w2 := by injection he
      exact ⟨rfl, h1, h2⟩
    · simp only [List.nil_append, List.cons_append] at he
      have h1 : c = a := by injection he
      exact absurd (h1 ▸ hc) (hw a (by simp))
  | cons a z1t ih =>
    intro w1 c d z2 w2 he hz hw hc hd
    rcases w1 with _ | ⟨b, w1t⟩
    · simp only [List.cons_append, List.nil_append] at he
      have h1 : a = d := by injection he
      exact absurd (h1 ▸ hd) (hz a (by simp))
    · simp only [List.cons_append] at he
      have h1 : a = b := by injection he
      have h2 : z1t ++ c :: z2 = w1t ++ d :: w2 := by injection he
      obtain ⟨hz1, hcd, hz2⟩ := ih h2 (fun y hy => hz y (by simp [hy]))
        (fun y hy => hw y (by simp [hy])) hc hd
      exact ⟨by rw [h1, hz1], hcd, hz2⟩

theorem append_clean_split {D : Bytes} :
    ∀ {R z1 z2 : Bytes} {c : Nat},
    D ++ R = z1 ++ c :: z2 → (∀ y ∈ D, y ∉ stopToken) → (∀ y ∈ z1, y ∉ stopToken) →
    c ∈ stopToken → ∃ t1, z1 = D ++ t1 ∧ R = t1 ++ c :: z2 := by
  induction D with
  | nil =>
    intro R z1 z2 c he _ _ _
    exact ⟨z1, by simp, by simpa using he⟩
  | cons d Dt ih =>
    intro R z1 z2 c he hD hz hc
    rcases z1 with _ | ⟨a, z1t⟩
    · simp only [List.nil_append, List.cons_append] at he
      have h1 : d = c := by injection he
      exact absurd hc (h1 ▸ hD d (by simp))
    · simp only [List.cons_append] at he
      have h1 : d = a := by injection he
      have h2 : Dt ++ R = z1t ++ c :: z2 := by injection he
      obtain ⟨t1, hz1, hR⟩ := ih h2 (fun y hy => hD y (by simp [hy]))
        (fun y hy => hz y (by simp [hy])) hc
      exact ⟨t1, by simp [hz1, h1], hR⟩

theorem split64_in_left : ∀ (W : Bytes) {Y t1 z2 : Bytes},
    W ++ Y = t1 ++ 64 :: z2 → (∀ y ∈ t1, y ∉ stopToken) →
    (Y = [] ∨ ∃ b yt, Y = b :: yt ∧ b ∈ stopToken ∧ b ≠ 64) →
    ∃ w2, W = t1 ++ 64 :: w2 ∧ z2 = w2 ++ Y := by
  intro W
  induction W with
  | nil =>
    intro Y t1 z2 he ht hY
    rcases hY with hY | ⟨b, yt, hY, hb, hb64⟩
    · subst hY
      have hlen := congrArg List.length he
      simp at hlen
      omega
    · subst hY
      simp only [List.nil_append] at he
      rcases t1 with _ | ⟨a, t1t⟩
      · have h1 : b = 64 := by injection he
        exact absurd h1 hb64
      · have h1 : b = a := by injection he
        exact absurd (h1 ▸ hb) (ht a (by simp))
  | cons w Wt ih =>
    intro Y t1 z2 he ht hY
    rcases t1 with _ | ⟨a, t1t⟩
    · simp only [List.nil_append, List.cons_append] at he
      have h1 : w = 64 := by injection he
      have h2 : Wt ++ Y = z2 := by injection he
      exact ⟨Wt, by simp [h1], h2.symm⟩
    · simp only [List.cons_append] at he
      have h1 : w = a := by injection he
      have h2 : Wt ++ Y = t1t ++ 64 :: z2 := by injection he
      obtain ⟨w2, hW, hz⟩ := ih h2 (fun y hy => ht y (by simp [hy])) hY
      exact ⟨w2, by simp [hW, h1], hz⟩

theorem split64_transfer {D1 D2 W Y1 Y2 : Bytes}
    (hD1 : ∀ y ∈ D1, isDigitByte y = true)
    (hD2 : D2 ≠ []) (hd2 : ∀ y ∈ D2, isDigitByte y = true)
    (hY : EndsLike Y1 Y2)
    (h : ∃ z1 z2, D1 ++ (W ++ Y1) = z1 ++ 64 :: z2 ∧ z1 ≠ [] ∧
      (∀ y ∈ z1, y ∉ stopToken) ∧ utf8Valid z1 = true) :
    ∃ z1 z2, D2 ++ (W ++ Y2) = z1 ++ 64 :: z2 ∧ z1 ≠ [] ∧
      (∀ y ∈ z1, y ∉ stopToken) ∧ utf8Valid z1 = true := by
  obtain ⟨z1, z2, he, hne, hcl, hv⟩ := h
  have hDcl : ∀ y ∈ D1, y ∉ stopToken := fun y hy => digit_not_stopToken (hD1 y hy)
  obtain ⟨t1, hz1, hR⟩ := append_clean_split he hDcl hcl (by decide)
  have hYshape : Y1 = [] ∨ ∃ b yt, Y1 = b :: yt ∧ b ∈ stopToken ∧ b ≠ 64 := by
    rcases endsLike_cons hY with ⟨h1, h2⟩ | ⟨b, xt, xt2, hb, h1, h2⟩
    · exact Or.inl h1
    · refine Or.inr ⟨b, xt, h1, ?_, ?_⟩ <;> rcases hb with hb | hb <;> subst hb <;> decide
  have ht1cl : ∀ y ∈ t1, y ∉ stopToken := by
    intro y hy
    exact hcl y (by rw [hz1]; simp [hy])
  obtain ⟨w2, hW, hz2⟩ := split64_in_left W hR ht1cl hYshape
  refine ⟨D2 ++ t1, w2 ++ Y2, ?_, by simp [hD2], ?_, ?_⟩
  · rw [hW]
    simp
  · intro y hy
    rcases List.mem_append.mp hy with hy | hy
    · exact digit_not_stopToken (hd2 y hy)
    · exact ht1cl y hy
  · have h1 : utf8Valid (D1 ++ t1) = utf8Valid t1 :=
      utf8Valid_ascii_append fun y hy => digit_byte_le127 (hD1 y hy)
    have h2 : utf8Valid (D2 ++ t1) = utf8Valid t1 :=
      utf8Valid_ascii_append fun y hy => digit_byte_le127 (hd2 y hy)
    rw [h2, ← h1, ← hz1]
    exact hv

/-! Forward evaluation of the user and port sub-parsers on rendered input. -/

theorem user_eval {us : User} (rest : Bytes)
    (hn : us.name ≠ []) (hnc : ∀ y ∈ us.name, y ∉ stopToken)
    (hnv : utf8Valid us.name = true)
    (hpw : (∃ p2, us.password = some p2 ∧ p2 ≠ [] ∧ (∀ y ∈ p2, y ∉ stopToken) ∧
        utf8Valid p2 = true) ∨ us.password = none) :
    user (renderUser us ++ rest) = .Done rest us := by
  obtain ⟨n, opw⟩ := us
  cases opw with
  | none =>
    have hi : renderUser ⟨n, none⟩ ++ rest = n ++ 64 :: rest := by
      simp [renderUser]
    rw [hi]
    have htok : token (n ++ 64 :: rest) = .Done (64 :: rest) n :=
      tokGen_eval_mid rest hnc hn (by decide) hnv
    have hpw2 : passwordP (64 :: rest) = .Error .Tag := by
      have ht : ptag [58] (64 :: rest) = .Error .Tag := ptag_cons_ne [] rest (by decide)
      simp only [passwordP, pbind, ht]
    have htag : ptag [64] (64 :: rest) = .Done rest [64] := ptag_self_append [64] rest
    simp only [user, pbind_of_done htok, pbind_of_done (popt_of_error hpw2),
      pbind_of_done htag, ppure_eval]
  | some p =>
    have hfacts : p ≠ [] ∧ (∀ y ∈ p, y ∉ stopToken) ∧ utf8Valid p = true := by
      rcases hpw with ⟨p2, hp2, hf1, hf2, hf3⟩ | hnone
      · have hpp2 : p = p2 := by injection hp2
        subst hpp2
        exact ⟨hf1, hf2, hf3⟩
      · cases hnone
    obtain ⟨hpne, hpc, hpv⟩ := hfacts
    have hi : renderUser ⟨n, some p⟩ ++ rest = n ++ 58 :: (p ++ 64 :: rest) := by
      simp [renderUser]
    rw [hi]
    have htok : token (n ++ 58 :: (p ++ 64 :: rest)) = .Done (58 :: (p ++ 64 :: rest)) n :=
      tokGen_eval_mid _ hnc hn (by decide) hnv
    have htokp : token (p ++ 64 :: rest) = .Done (64 :: rest) p :=
      tokGen_eval_mid rest hpc hpne (by decide) hpv
    have hpwd : passwordP (58 :: (p ++ 64 :: rest)) = .Done (64 :: rest) p := by
      have ht : ptag [58] (58 :: (p ++ 64 :: rest)) = .Done (p ++ 64 :: rest) [58] :=
        ptag_self_append [58] _
      simp only [passwordP, pbind_of_done ht, pbind_of_done htokp, ppure_eval]
    have htag : ptag [64] (64 :: rest) = .Done rest [64] := ptag_self_append [64] rest
    simp only [user, pbind_of_done htok, pbind_of_done (popt_of_done hpwd),
      pbind_of_done htag, ppure_eval]

theorem portP_eval {p : Nat} (hp : p ≤ 65535) (rest : Bytes)
    (hrest : rest = [] ∨ ∃ b rt, rest = b :: rt ∧ isDigitByte b = false) :
    portP (58 :: (decimal p ++ rest)) = .Done rest p := by
  have ht : ptag [58] (58 :: (decimal p ++ rest)) = .Done (decimal p ++ rest) [58] :=
    ptag_self_append [58] _
  have hdig : digit (decimal p ++ rest) = .Done rest (decimal p) := by
    rcases hrest with hrest | ⟨b, rt, hrr, hbd⟩
    · subst hrest
      rw [List.append_nil]
      exact digit_eval_all (decimal_digits p)
    · subst hrr
      exact digit_eval_mid rt (decimal_digits p) (decimal_ne_nil p) hbd
  have hb16 : bytesToU16 (decimal p) = some p := by
    rw [bytesToU16_digits (decimal_digits p) (decimal_ne_nil p)]
    rw [natOfDigits_decimal]
    simp [hp]
  have hmr : mapRes digit bytesToU16 (decimal p ++ rest) = .Done rest p := by
    rw [mapRes_of_done hdig bytesToU16, hb16]
  simp only [portP, pbind_of_done ht, pbind_of_done hmr, ppure_eval]

theorem portP_nil_incomplete : portP [] = .Incomplete 1 := by
  have ht : ptag [58] ([] : Bytes) = .Incomplete 1 := ptag_nil (by simp)
  simp only [portP, pbind, ht]

theorem popt_pcomplete_portP_nil : popt (pcomplete portP) [] = .Done [] none := by
  simp only [popt, pcomplete, portP_nil_incomplete]

theorem popt_pcomplete_portP_ne {b : Nat} (r : Bytes) (hb : b ≠ 58) :
    popt (pcomplete portP) (b :: r) = .Done (b :: r) none := by
  have ht : ptag [58] (b :: r) = .Error .Tag := ptag_cons_ne [] r hb
  have hpp : portP (b :: r) = .Error .Tag := by
    simp only [portP, pbind, ht]
  simp only [popt, pcomplete, hpp]

/-! Complete analysis of the user parser on host ++ ':' ++ Z: it succeeds
exactly when the first stop byte of Z is an '@' preceded by a nonempty valid
span (the candidate password). -/

theorem user58_analysis {h0 Z : Bytes} (hne : h0 ≠ []) (hcl : ∀ y ∈ h0, y ∉ stopToken)
    (hv : utf8Valid h0 = true) :
    (∃ z1 z2, Z = z1 ++ 64 :: z2 ∧ z1 ≠ [] ∧ (∀ y ∈ z1, y ∉ stopToken) ∧
        utf8Valid z1 = true ∧
        user (h0 ++ 58 :: Z) = .Done z2 { name := h0, password := some z1 }) ∨
    ((¬ ∃ z1 z2, Z = z1 ++ 64 :: z2 ∧ z1 ≠ [] ∧ (∀ y ∈ z1, y ∉ stopToken) ∧
        utf8Valid z1 = true) ∧
      ∃ e, pcomplete user (h0 ++ 58 :: Z) = .Error e) := by
  have htok : token (h0 ++ 58 :: Z) = .Done (58 :: Z) h0 :=
    tokGen_eval_mid Z hcl hne (by decide) hv
  have htag58 : ptag [58] (58 :: Z) = .Done Z [58] := ptag_self_append [58] Z
  cases hf : findIdxP (fun y => stopToken.contains y) Z with
  | none =>
    have hZcl : ∀ y ∈ Z, y ∉ stopToken :=
      fun y hy => not_mem_of_contains_false (findIdxP_none_inv hf y hy)
    refine Or.inr ⟨?_, ?_⟩
    · rintro ⟨z1, z2, he, hz1ne, hz1cl, hz1v⟩
      exact hZcl 64 (by rw [he]; simp) (by decide)
    · by_cases hvz : utf8Valid Z = true
      · have htz : token Z = .Done [] Z := tokGen_eval_all hZcl hvz
        have hpw : passwordP (58 :: Z) = .Done [] Z := by
          simp only [passwordP, pbind_of_done htag58, pbind_of_done htz, ppure_eval]
        have h64 : ptag [64] ([] : Bytes) = .Incomplete 1 := ptag_nil (by simp)
        have hu : user (h0 ++ 58 :: Z) = .Incomplete 1 := by
          simp only [user, pbind_of_done htok, pbind_of_done (popt_of_done hpw),
            pbind_of_incomplete h64]
        exact ⟨.Complete, pcomplete_of_incomplete hu⟩
      · have hiso : isNot stopToken Z = .Done [] Z := isNot_eval_all hZcl
        have htz : token Z = .Error .MapRes := by
          have hfu : fromUtf8 Z = none := by simp [fromUtf8, hvz]
          simp only [token, mapRes, hiso, hfu]
        have hpw : passwordP (58 :: Z) = .Error .MapRes := by
          simp only [passwordP, pbind_of_done htag58, pbind_of_error htz]
        have h64 : ptag [64] (58 :: Z) = .Error .Tag := ptag_cons_ne [] Z (by decide)
        have hu : user (h0 ++ 58 :: Z) = .Error .Tag := by
          simp only [user, pbind_of_done htok, pbind_of_done (popt_of_error hpw),
            pbind_of_error h64]
        exact ⟨.Tag, pcomplete_of_error hu⟩
  | some n =>
    obtain ⟨z1, x, z2, hZ, hlen, hclean, hx⟩ := findIdxP_some_split hf
    have hz1cl : ∀ y ∈ z1, y ∉ stopToken :=
      fun y hy => not_mem_of_contains_false (hclean y hy)
    have hxst : x ∈ stopToken := mem_of_contains_true hx
    by_cases hz1 : z1 = []
    · subst hz1
      have htz : token Z = .Error .IsNot := by
        rw [hZ]
        exact tokGen_eval_cons z2 hxst
      have hpw : passwordP (58 :: Z) = .Error .IsNot := by
        simp only [passwordP, pbind_of_done htag58, pbind_of_error htz]
      have h64 : ptag [64] (58 :: Z) = .Error .Tag := ptag_cons_ne [] Z (by decide)
      have hu : user (h0 ++ 58 :: Z) = .Error .Tag := by
        simp only [user, pbind_of_done htok, pbind_of_done (popt_of_error hpw),
          pbind_of_error h64]
      refine Or.inr ⟨?_, .Tag, pcomplete_of_error hu⟩
      rintro ⟨w1, w2, he, hw1ne, hw1cl, hw1v⟩
      have he2 : ([] : Bytes) ++ x :: z2 = w1 ++ 64 :: w2 := by rw [← hZ]; exact he
      obtain ⟨h1, h2, h3⟩ := clean_split_unique he2 (by simp) hw1cl hxst (by decide)
      exact hw1ne h1.symm
    · by_cases hvx : utf8Valid z1 = true
      · by_cases hx64 : x = 64
        · subst hx64
          have htz : token Z = .Done (64 :: z2) z1 := by
            rw [hZ]
            exact tokGen_eval_mid z2 hz1cl hz1 (by decide) hvx
          have hpw : passwordP (58 :: Z) = .Done (64 :: z2) z1 := by
            simp only [passwordP, pbind_of_done htag58, pbind_of_done htz, ppure_eval]
          have h64 : ptag [64] (64 :: z2) = .Done z2 [64] := ptag_self_append [64] z2
          have hu : user (h0 ++ 58 :: Z) = .Done z2 ⟨h0, some z1⟩ := by
            simp only [user, pbind_of_done htok, pbind_of_done (popt_of_done hpw),
              pbind_of_done h64, ppure_eval]
          exact Or.inl ⟨z1, z2, hZ, hz1, hz1cl, hvx, hu⟩
        · have htz : token Z = .Done (x :: z2) z1 := by
            rw [hZ]
            exact tokGen_eval_mid z2 hz1cl hz1 hxst hvx
          have hpw : passwordP (58 :: Z) = .Done (x :: z2) z1 := by
            simp only [passwordP, pbind_of_done htag58, pbind_of_done htz, ppure_eval]
          have h64 : ptag [64] (x :: z2) = .Error .Tag := ptag_cons_ne [] z2 hx64
          have hu : user (h0 ++ 58 :: Z) = .Error .Tag := by
            simp only [user, pbind_of_done htok, pbind_of_done (popt_of_done hpw),
              pbind_of_error h64]
          refine Or.inr ⟨?_, .Tag, pcomplete_of_error hu⟩
          rintro ⟨w1, w2, he, hw1ne, hw1cl, hw1v⟩
          have he2 : z1 ++ x :: z2 = w1 ++ 64 :: w2 := by rw [← hZ]; exact he
          obtain ⟨h1, h2, h3⟩ := clean_split_unique he2 hz1cl hw1cl hxst (by decide)
          exact hx64 h2
      · have hiso : isNot stopToken Z = .Done (x :: z2) z1 := by
          rw [hZ]
          exact isNot_eval_mid z2 hz1cl hz1 hxst
        have htz : token Z = .Error .MapRes := by
          have hfu : fromUtf8 z1 = none := by simp [fromUtf8, hvx]
          simp only [token, mapRes, hiso, hfu]
        have hpw : passwordP (58 :: Z) = .Error .MapRes := by
          simp only [passwordP, pbind_of_done htag58, pbind_of_error htz]
        have h64 : ptag [64] (58 :: Z) = .Error .Tag := ptag_cons_ne [] Z (by decide)
        have hu : user (h0 ++ 58 :: Z) = .Error .Tag := by
          simp only [user, pbind_of_done htok, pbind_of_done (popt_of_error hpw),
            pbind_of_error h64]
        refine Or.inr ⟨?_, .Tag, pcomplete_of_error hu⟩
        rintro ⟨w1, w2, he, hw1ne, hw1cl, hw1v⟩
        have he2 : z1 ++ x :: z2 = w1 ++ 64 :: w2 := by rw [← hZ]; exact he
        obtain ⟨h1, h2, h3⟩ := clean_split_unique he2 hz1cl hw1cl hxst (by decide)
        rw [h1] at hvx
        exact hvx hw1v

/-! Evaluation of the whole authority parser on a rendered authority. -/

theorem authority_render_eval {ou : Option User} {h0 : Bytes} {op : Option Nat} {T2 : Bytes}
    (hh0c : ∀ y ∈ h0, y ∉ stopToken) (hh0v : utf8Valid h0 = true)
    (huser : (∃ us, ou = some us ∧ us.name ≠ [] ∧ (∀ y ∈ us.name, y ∉ stopToken) ∧
        utf8Valid us.name = true ∧
        ((∃ p2, us.password = some p2 ∧ p2 ≠ [] ∧ (∀ y ∈ p2, y ∉ stopToken) ∧
            utf8Valid p2 = true) ∨ us.password = none)) ∨
      (ou = none ∧ ∃ e, pcomplete user (h0 ++ (portR op ++ T2)) = .Error e))
    (hafter : h0 ≠ [] → portR op ++ T2 = [] ∨
        ∃ c rt, portR op ++ T2 = c :: rt ∧ c ∈ stopToken)
    (hnil : h0 = [] → op = none ∧ T2 = [])
    (hport : (∃ p, op = some p ∧ p ≤ 65535 ∧
        (T2 = [] ∨ ∃ b rt, T2 = b :: rt ∧ isDigitByte b = false)) ∨
      (op = none ∧ (T2 = [] ∨ ∃ b rt, T2 = b :: rt ∧ b ≠ 58))) :
    authority (47 :: 47 :: (userR ou ++ (h0 ++ (portR op ++ T2)))) =
      .Done T2 (ou, h0, op) := by
  have htag : ptag [47, 47] (47 :: 47 :: (userR ou ++ (h0 ++ (portR op ++ T2)))) =
      .Done (userR ou ++ (h0 ++ (portR op ++ T2))) [47, 47] :=
    ptag_self_append [47, 47] _
  have huser2 : popt (pcomplete user) (userR ou ++ (h0 ++ (portR op ++ T2))) =
      .Done (h0 ++ (portR op ++ T2)) ou := by
    rcases huser with ⟨us, hou, h1, h2, h3, h4⟩ | ⟨hou, e, he⟩
    · subst hou
      have hu : user (renderUser us ++ (h0 ++ (portR op ++ T2))) =
          .Done (h0 ++ (portR op ++ T2)) us := user_eval _ h1 h2 h3 h4
      exact popt_of_done (pcomplete_of_done (by simpa [userR] using hu))
    · subst hou
      simpa [userR] using popt_of_error he
  have htok : token (h0 ++ (portR op ++ T2)) = .Done (portR op ++ T2) h0 := by
    by_cases hh0 : h0 = []
    · obtain ⟨hop, hT2⟩ := hnil hh0
      subst hh0 hop hT2
      have h1 : token ([] : Bytes) = .Done [] [] :=
        tokGen_eval_all (t := ([] : Bytes)) (by simp) rfl
      simpa [portR] using h1
    · rcases hafter hh0 with hA | ⟨c, rt, hA, hc⟩
      · rw [hA, List.append_nil]
        exact tokGen_eval_all hh0c hh0v
      · rw [hA]
        exact tokGen_eval_mid rt hh0c hh0 hc hh0v
  have hportP : popt (pcomplete portP) (portR op ++ T2) = .Done T2 op := by
    rcases hport with ⟨p, hop, hp65, hrest⟩ | ⟨hop, hshp⟩
    · subst hop
      have hpp : portP (58 :: (decimal p ++ T2)) = .Done T2 p := portP_eval hp65 T2 hrest
      have hsh : portR (some p) ++ T2 = 58 :: (decimal p ++ T2) := by simp [portR]
      rw [hsh]
      exact popt_of_done (pcomplete_of_done hpp)
    · subst hop
      have hsh : portR none ++ T2 = T2 := by simp [portR]
      rw [hsh]
      rcases hshp with hT | ⟨b, rt, hT, hb⟩
      · rw [hT]
        exact popt_pcomplete_portP_nil
      · rw [hT]
        exact popt_pcomplete_portP_ne rt hb
  simp only [authority, pbind_of_done htag, pbind_of_done huser2, pbind_of_done htok,
    pbind_of_done hportP, ppure_eval]

/-! Query machinery: rendering algebra for the pair list, extraction of the
pair invariants from a successful parse, and evaluation of the separated
list on rendered pairs. -/

theorem renderPairs_cons : ∀ (kv : Bytes × Bytes) (rest : List (Bytes × Bytes)),
    renderPairs (kv :: rest) = kv.1 ++ 61 :: (kv.2 ++ renderAmp rest)
  | (k, v), [] => by simp [renderPairs, renderAmp]
  | (k, v), (pk, pv) :: rest2 => by
    have ih := renderPairs_cons (pk, pv) rest2
    simp [renderPairs, renderAmp, ih]

theorem query_item_done_inv {i r : Bytes} {kv : Bytes × Bytes}
    (h : query_item i = .Done r kv) :
    kv.1 ≠ [] ∧ (∀ y ∈ kv.1, y ∉ stopQuery) ∧ utf8Valid kv.1 = true ∧
      (∀ y ∈ kv.2, y ∉ stopQuery) ∧ utf8Valid kv.2 = true := by
  obtain ⟨r1, k, htk, h⟩ := pbind_done_iff.mp h
  obtain ⟨r2, c, hc, h⟩ := pbind_done_iff.mp h
  obtain ⟨r3, v, htv, h⟩ := pbind_done_iff.mp h
  simp only [ppure_eval] at h
  cases h
  obtain ⟨hi1, hkc, hkv, _⟩ := tokGen_done_inv htk
  obtain ⟨_, hvc, hvv, _⟩ := tokGen_done_inv htv
  have hkne : k ≠ [] := by
    intro hk
    subst hk
    obtain ⟨hi0, hr0⟩ := tokGen_done_nil htk
    subst hr0
    rw [pchar_nil] at hc
    cases hc
  exact ⟨hkne, hkc, hkv, hvc, hvv⟩

theorem query_done_inv {i r : Bytes} {m : List (Bytes × Bytes)} (h : query i = .Done r m) :
    ∃ q1 pairs, i = 63 :: q1 ∧
      separatedList (pcomplete (pchar 38)) (pcomplete query_item) q1 = .Done r pairs ∧
      m = collect pairs := by
  obtain ⟨pairs, hin, hm⟩ := pmap_done_iff.mp h
  obtain ⟨q1, tv, htag, hsep⟩ := pbind_done_iff.mp hin
  obtain ⟨htv, hi⟩ := ptag_done_inv htag
  exact ⟨q1, pairs, by rw [hi]; rfl, hsep, hm.symm⟩

theorem sepLoop_elems {sep : Bytes → IResult α} {item : Bytes → IResult β} {P : β → Prop}
    (hP : ∀ i r b, item i = .Done r b → P b) :
    ∀ (fuel : Nat) (input : Bytes) (acc : List β), (∀ b ∈ acc, P b) →
      ∀ b ∈ (sepLoop sep item fuel input acc).2, P b := by
  intro fuel
  induction fuel with
  | zero =>
    intro input acc hacc
    exact hacc
  | succ f ih =>
    intro input acc hacc
    cases hsep : sep input with
    | Error e =>
      have heq : sepLoop sep item (f + 1) input acc = (input, acc) := by
        simp only [sepLoop, hsep]
      rw [heq]
      exact hacc
    | Incomplete n =>
      have heq : sepLoop sep item (f + 1) input acc = (input, acc) := by
        simp only [sepLoop, hsep]
      rw [heq]
      exact hacc
    | Done i2 s =>
      by_cases hl : i2.length = input.length
      · have heq : sepLoop sep item (f + 1) input acc = (input, acc) := by
          simp only [sepLoop, hsep, if_pos hl]
        rw [heq]
        exact hacc
      · cases hit : item i2 with
        | Error e =>
          have heq : sepLoop sep item (f + 1) input acc = (input, acc) := by
            simp only [sepLoop, hsep, if_neg hl, hit]
          rw [heq]
          exact hacc
        | Incomplete n =>
          have heq : sepLoop sep item (f + 1) input acc = (input, acc) := by
            simp only [sepLoop, hsep, if_neg hl, hit]
          rw [heq]
          exact hacc
        | Done i3 o =>
          by_cases hl2 : i3.length = i2.length
          · have heq : sepLoop sep item (f + 1) input acc = (input, acc) := by
              simp only [sepLoop, hsep, if_neg hl, hit, if_pos hl2]
            rw [heq]
            exact hacc
          · have heq : sepLoop sep item (f + 1) input acc
                = sepLoop sep item f i3 (acc ++ [o]) := by
              simp only [sepLoop, hsep, if_neg hl, hit, if_neg hl2]
            rw [heq]
            refine ih i3 (acc ++ [o]) ?_
            intro b2 hb2
            rcases List.mem_append.mp hb2 with h2 | h2
            · exact hacc b2 h2
            · simp at h2
              rw [h2]
              exact hP i2 i3 o hit

theorem separatedList_elems {sep : Bytes → IResult α} {item : Bytes → IResult β}
    {i r : Bytes} {l : List β} {P : β → Prop}
    (h : separatedList sep item i = .Done r l)
    (hP : ∀ i2 r2 b, item i2 = .Done r2 b → P b) :
    ∀ b ∈ l, P b := by
  cases hit : item i with
  | Error e =>
    simp only [separatedList, hit] at h
    cases h
    simp
  | Incomplete n =>
    simp only [separatedList, hit] at h
    cases h
  | Done r1 o =>
    simp only [separatedList, hit] at h
    by_cases hl : r1.length = i.length
    · rw [if_pos hl] at h
      cases h
    · rw [if_neg hl] at h
      cases h
      exact sepLoop_elems hP (r1.length + 1) r1 [o]
        (by
          intro b hb
          simp at hb
          rw [hb]
          exact hP i r1 o hit)

theorem mem_insertKV {l : List (Bytes × Bytes)} {kv kv2 : Bytes × Bytes}
    (h : kv2 ∈ insertKV l kv) : kv2 ∈ l ∨ kv2 = kv := by
  induction l with
  | nil =>
    obtain ⟨kk, vv⟩ := kv
    simp [insertKV] at h
    exact Or.inr h
  | cons hd rest ih =>
    obtain ⟨k2, v2⟩ := hd
    obtain ⟨kk, vv⟩ := kv
    by_cases hk : k2 = kk
    · subst hk
      simp only [insertKV, if_pos rfl] at h
      rcases List.mem_cons.mp h with h | h
      · exact Or.inr (by simp [h])
      · exact Or.inl (List.mem_cons_of_mem _ h)
    · simp only [insertKV, if_neg hk] at h
      rcases List.mem_cons.mp h with h | h
      · exact Or.inl (by simp [h])
      · rcases ih h with h2 | h2
        · exact Or.inl (List.mem_cons_of_mem _ h2)
        · exact Or.inr h2

theorem mem_collect {l : List (Bytes × Bytes)} {kv2 : Bytes × Bytes}
    (h : kv2 ∈ collect l) : kv2 ∈ l := by
  suffices hgen : ∀ (l2 acc : List (Bytes × Bytes)),
      kv2 ∈ l2.foldl insertKV acc → kv2 ∈ acc ∨ kv2 ∈ l2 by
    rcases hgen l [] h with h2 | h2
    · simp at h2
    · exact h2
  intro l2
  induction l2 with
  | nil =>
    intro acc h2
    exact Or.inl h2
  | cons hd rest ih =>
    intro acc h2
    rcases ih (insertKV acc hd) h2 with h3 | h3
    · rcases mem_insertKV h3 with h4 | h4
      · exact Or.inl h4
      · exact Or.inr (by simp [h4])
    · exact Or.inr (List.mem_cons_of_mem _ h3)

theorem mem_keys_insertKV {l : List (Bytes × Bytes)} {kv : Bytes × Bytes} {a : Bytes}
    (h : a ∈ (insertKV l kv).map Prod.fst) : a ∈ l.map Prod.fst ∨ a = kv.1 := by
  simp only [List.mem_map] at h
  obtain ⟨x, hx, hax⟩ := h
  rcases mem_insertKV hx with h2 | h2
  · exact Or.inl (List.mem_map.mpr ⟨x, h2, hax⟩)
  · subst h2
    exact Or.inr hax.symm

theorem nodupKeys_insertKV {l : List (Bytes × Bytes)} {kv : Bytes × Bytes}
    (h : (l.map Prod.fst).Nodup) : ((insertKV l kv).map Prod.fst).Nodup := by
  induction l with
  | nil =>
    obtain ⟨kk, vv⟩ := kv
    simp [insertKV]
  | cons hd rest ih =>
    obtain ⟨k2, v2⟩ := hd
    obtain ⟨kk, vv⟩ := kv
    simp only [List.map_cons, List.nodup_cons] at h
    obtain ⟨hk2, hrest⟩ := h
    by_cases hk : k2 = kk
    · subst hk
      have hins : insertKV ((k2, v2) :: rest) (k2, vv) = (k2, vv) :: rest := by
        simp [insertKV]
      rw [hins, List.map_cons, List.nodup_cons]
      exact ⟨hk2, hrest⟩
    · simp only [insertKV, if_neg hk, List.map_cons, List.nodup_cons]
      refine ⟨?_, ih hrest⟩
      intro hmem
      rcases mem_keys_insertKV hmem with h2 | h2
      · exact hk2 h2
      · exact hk h2

theorem collect_nodupKeys (l : List (Bytes × Bytes)) :
    ((collect l).map Prod.fst).Nodup := by
  suffices hgen : ∀ (l2 acc : List (Bytes × Bytes)), (acc.map Prod.fst).Nodup →
      ((l2.foldl insertKV acc).map Prod.fst).Nodup by
    exact hgen l [] (by simp)
  intro l2
  induction l2 with
  | nil =>
    intro acc hacc
    exact hacc
  | cons hd rest ih =>
    intro acc hacc
    exact ih (insertKV acc hd) (nodupKeys_insertKV hacc)

theorem lookupKV_some_of_mem {l : List (Bytes × Bytes)} {k v : Bytes}
    (hnd : (l.map Prod.fst).Nodup) (hm : (k, v) ∈ l) : lookupKV l k = some v := by
  induction l with
  | nil => simp at hm
  | cons hd rest ih =>
    obtain ⟨k2, v2⟩ := hd
    simp only [List.map_cons, List.nodup_cons] at hnd
    obtain ⟨hk2, hrest⟩ := hnd
    rcases List.mem_cons.mp hm with hm | hm
    · cases hm
      simp [lookupKV]
    · have hkne : k2 ≠ k := by
        intro he
        subst he
        exact hk2 (List.mem_map.mpr ⟨(k2, v), hm, rfl⟩)
      simp only [lookupKV, if_neg hkne]
      exact ih hrest hm

theorem mem_of_lookupKV_some {l : List (Bytes × Bytes)} {k v : Bytes}
    (h : lookupKV l k = some v) : (k, v) ∈ l := by
  induction l with
  | nil => cases h
  | cons hd rest ih =>
    obtain ⟨k2, v2⟩ := hd
    by_cases hk : k2 = k
    · subst hk
      simp only [lookupKV, if_pos rfl] at h
      cases h
      simp
    · simp only [lookupKV, if_neg hk] at h
      exact List.mem_cons_of_mem _ (ih h)

theorem lookupKV_none_iff {l : List (Bytes × Bytes)} {k : Bytes} :
    lookupKV l k = none ↔ k ∉ l.map Prod.fst := by
  induction l with
  | nil => simp [lookupKV]
  | cons hd rest ih =>
    obtain ⟨k2, v2⟩ := hd
    by_cases hk : k2 = k
    · subst hk
      simp [lookupKV]
    · simp [lookupKV, hk, Ne.symm hk, ih]

theorem lookupKV_eq_of_perm {l1 l2 : List (Bytes × Bytes)} (hp : l1.Perm l2)
    (hnd : (l2.map Prod.fst).Nodup) (k : Bytes) : lookupKV l1 k = lookupKV l2 k := by
  have hnd1 : (l1.map Prod.fst).Nodup := ((hp.map Prod.fst).nodup_iff).mpr hnd
  cases h2 : lookupKV l2 k with
  | some v =>
    have hm : (k, v) ∈ l2 := mem_of_lookupKV_some h2
    exact lookupKV_some_of_mem hnd1 (hp.mem_iff.mpr hm)
  | none =>
    rw [lookupKV_none_iff] at h2 ⊢
    intro hmem
    exact h2 ((hp.map Prod.fst).mem_iff.mp hmem)

theorem query_item_eval {k v : Bytes} (R : Bytes) (hk : k ≠ [])
    (hkc : ∀ y ∈ k, y ∉ stopQuery) (hkv : utf8Valid k = true)
    (hv : v ≠ []) (hvc : ∀ y ∈ v, y ∉ stopQuery) (hvv : utf8Valid v = true)
    (hR : R = [] ∨ ∃ b rt, R = b :: rt ∧ b ∈ stopQuery) :
    query_item (k ++ 61 :: (v ++ R)) = .Done R (k, v) := by
  have htk : query_token (k ++ 61 :: (v ++ R)) = .Done (61 :: (v ++ R)) k :=
    tokGen_eval_mid _ hkc hk (by decide) hkv
  have hc : pchar 61 (61 :: (v ++ R)) = .Done (v ++ R) 61 := pchar_eval_eq 61 _
  have htv : query_token (v ++ R) = .Done R v := by
    rcases hR with hR | ⟨b, rt, hR2, hb⟩
    · subst hR
      rw [List.append_nil]
      exact tokGen_eval_all hvc hvv
    · subst hR2
      exact tokGen_eval_mid rt hvc hv hb hvv
  simp only [query_item, pbind_of_done htk, pbind_of_done hc, pbind_of_done htv, ppure_eval]

theorem sep38_fail {H2 : Bytes} (hH : H2 = [] ∨ ∃ hs, H2 = 35 :: hs) :
    ∃ e, pcomplete (pchar 38) H2 = .Error e := by
  rcases hH with hH | ⟨hs, hH⟩
  · subst hH
    exact ⟨.Complete, pcomplete_of_incomplete (pchar_nil 38)⟩
  · subst hH
    exact ⟨.Chr, pcomplete_of_error (pchar_eval_ne hs (by decide))⟩

theorem query_item_boundary_fail {H2 : Bytes} (hH : H2 = [] ∨ ∃ hs, H2 = 35 :: hs) :
    ∃ e, pcomplete query_item H2 = .Error e := by
  rcases hH with hH | ⟨hs, hH⟩
  · subst hH
    have htk : query_token [] = .Done [] [] := tokGen_eval_all (by simp) (by decide)
    have hqi : query_item [] = .Incomplete 1 := by
      simp only [query_item, pbind_of_done htk, pbind_of_incomplete (pchar_nil 61)]
    exact ⟨.Complete, pcomplete_of_incomplete hqi⟩
  · subst hH
    have htk : query_token (35 :: hs) = .Error .IsNot := tokGen_eval_cons hs (by decide)
    have hqi : query_item (35 :: hs) = .Error .IsNot := by
      simp only [query_item, pbind_of_error htk]
    exact ⟨.IsNot, pcomplete_of_error hqi⟩

theorem sepLoop_pairs :
    ∀ (rest : List (Bytes × Bytes)) (fuel : Nat) (acc : List (Bytes × Bytes)) (H2 : Bytes),
    (∀ kv ∈ rest, PairWF kv) → (H2 = [] ∨ ∃ hs, H2 = 35 :: hs) →
    (renderAmp rest).length < fuel →
    sepLoop (pcomplete (pchar 38)) (pcomplete query_item) fuel (renderAmp rest ++ H2) acc
      = (H2, acc ++ rest) := by
  intro rest
  induction rest with
  | nil =>
    intro fuel acc H2 hwf hH hfuel
    obtain ⟨f, hf⟩ : ∃ f, fuel = f + 1 := by
      rcases fuel with _ | f
      · simp at hfuel
      · exact ⟨f, rfl⟩
    subst hf
    obtain ⟨e, he⟩ := sep38_fail hH
    simp only [renderAmp, List.nil_append]
    simp only [sepLoop, he]
    simp
  | cons kv rest2 ih =>
    intro fuel acc H2 hwf hH hfuel
    obtain ⟨k, v⟩ := kv
    obtain ⟨hkne, hkc, hkv, hvne, hvc, hvv⟩ := hwf (k, v) (by simp)
    obtain ⟨f, hf⟩ : ∃ f, fuel = f + 1 := by
      rcases fuel with _ | f
      · simp at hfuel
      · exact ⟨f, rfl⟩
    subst hf
    have hsh : renderAmp ((k, v) :: rest2) ++ H2
        = 38 :: (k ++ 61 :: (v ++ (renderAmp rest2 ++ H2))) := by
      simp [renderAmp]
    have hsep : pcomplete (pchar 38) (38 :: (k ++ 61 :: (v ++ (renderAmp rest2 ++ H2))))
        = .Done (k ++ 61 :: (v ++ (renderAmp rest2 ++ H2))) 38 :=
      pcomplete_of_done (pchar_eval_eq 38 _)
    have hR : renderAmp rest2 ++ H2 = [] ∨
        ∃ b rt, renderAmp rest2 ++ H2 = b :: rt ∧ b ∈ stopQuery := by
      cases rest2 with
      | nil =>
        rcases hH with hH | ⟨hs, hH⟩
        · subst hH
          exact Or.inl (by simp [renderAmp])
        · subst hH
          exact Or.inr ⟨35, hs, by simp [renderAmp], by decide⟩
      | cons kv2 r3 =>
        obtain ⟨k2, v2⟩ := kv2
        exact Or.inr ⟨38, k2 ++ 61 :: (v2 ++ (renderAmp r3 ++ H2)),
          by simp [renderAmp], by decide⟩
    have hitem : pcomplete query_item (k ++ 61 :: (v ++ (renderAmp rest2 ++ H2)))
        = .Done (renderAmp rest2 ++ H2) (k, v) :=
      pcomplete_of_done (query_item_eval _ hkne hkc hkv hvne hvc hvv hR)
    have hlen1 : ¬ (k ++ 61 :: (v ++ (renderAmp rest2 ++ H2))).length
        = (38 :: (k ++ 61 :: (v ++ (renderAmp rest2 ++ H2)))).length := by
      simp
    have hlen2 : ¬ (renderAmp rest2 ++ H2).length
        = (k ++ 61 :: (v ++ (renderAmp rest2 ++ H2))).length := by
      rcases k with _ | ⟨kb, kt⟩
      · exact absurd rfl hkne
      · simp
        omega
    have hrec := ih f (acc ++ [(k, v)]) H2
      (fun kv2 h2 => hwf kv2 (by simp [h2])) hH
      (by
        simp only [renderAmp, List.length_cons, List.length_append] at hfuel
        omega)
    rw [hsh]
    simp only [sepLoop, hsep, if_neg hlen1, hitem, if_neg hlen2]
    rw [hrec]
    simp

theorem separatedList_render_eval {qp : List (Bytes × Bytes)} {H2 : Bytes}
    (hqp : ∀ kv ∈ qp, PairWF kv) (hH : H2 = [] ∨ ∃ hs, H2 = 35 :: hs) :
    separatedList (pcomplete (pchar 38)) (pcomplete query_item) (renderPairs qp ++ H2)
      = .Done H2 qp := by
  cases qp with
  | nil =>
    obtain ⟨e, he⟩ := query_item_boundary_fail hH
    have hsh : renderPairs ([] : List (Bytes × Bytes)) ++ H2 = H2 := by
      simp [renderPairs]
    rw [hsh]
    simp only [separatedList, he]
  | cons kv rest =>
    obtain ⟨k, v⟩ := kv
    obtain ⟨hkne, hkc, hkv, hvne, hvc, hvv⟩ := hqp (k, v) (by simp)
    have hsh : renderPairs ((k, v) :: rest) ++ H2
        = k ++ 61 :: (v ++ (renderAmp rest ++ H2)) := by
      rw [renderPairs_cons]
      simp
    have hR : renderAmp rest ++ H2 = [] ∨
        ∃ b rt, renderAmp rest ++ H2 = b :: rt ∧ b ∈ stopQuery := by
      cases rest with
      | nil =>
        rcases hH with hH | ⟨hs, hH⟩
        · subst hH
          exact Or.inl (by simp [renderAmp])
        · subst hH
          exact Or.inr ⟨35, hs, by simp [renderAmp], by decide⟩
      | cons kv2 r3 =>
        obtain ⟨k2, v2⟩ := kv2
        exact Or.inr ⟨38, k2 ++ 61 :: (v2 ++ (renderAmp r3 ++ H2)),
          by simp [renderAmp], by decide⟩
    have hitem : pcomplete query_item (k ++ 61 :: (v ++ (renderAmp rest ++ H2)))
        = .Done (renderAmp rest ++ H2) (k, v) :=
      pcomplete_of_done (query_item_eval _ hkne hkc hkv hvne hvc hvv hR)
    have hlen : ¬ (renderAmp rest ++ H2).length
        = (k ++ 61 :: (v ++ (renderAmp rest ++ H2))).length := by
      rcases k with _ | ⟨kb, kt⟩
      · exact absurd rfl hkne
      · simp
        omega
    have hloop := sepLoop_pairs rest ((renderAmp rest ++ H2).length + 1) [(k, v)] H2
      (fun kv2 h2 => hqp kv2 (by simp [h2])) hH
      (by simp only [List.length_append]; omega)
    rw [hsh]
    simp only [separatedList, hitem, if_neg hlen]
    rw [hloop]
    simp

theorem query_render_eval {qp : List (Bytes × Bytes)} {H2 : Bytes}
    (hqp : ∀ kv ∈ qp, PairWF kv) (hH : H2 = [] ∨ ∃ hs, H2 = 35 :: hs) :
    query (63 :: (renderPairs qp ++ H2)) = .Done H2 (collect qp) := by
  have htag : ptag [63] (63 :: (renderPairs qp ++ H2))
      = .Done (renderPairs qp ++ H2) [63] := ptag_self_append [63] _
  have hsep := separatedList_render_eval hqp hH
  simp only [query, pmap, pbind_of_done htag, hsep]

/-! Assembly of the reparsed chain on rendered text. -/

theorem uri_render_done {s B2 T2 Y2 H2 : Bytes}
    {oa : Option (Option User × Bytes × Option Nat)} {op : Option Bytes}
    {oq : Option (List (Bytes × Bytes))} {oh : Option Bytes}
    (h1 : scheme (s ++ 58 :: B2) = .Done (58 :: B2) s)
    (h2 : popt authority B2 = .Done T2 oa)
    (h3 : popt parse_path T2 = .Done Y2 op)
    (h4 : popt (pcomplete query) Y2 = .Done H2 oq)
    (h5 : popt (pcomplete hash) H2 = .Done [] oh) :
    uri (s ++ 58 :: B2) = .Done [] (mkURI s oa op oq oh) := by
  have htag : ptag [58] (58 :: B2) = .Done B2 [58] := ptag_self_append [58] B2
  rw [uri_eq_chain]
  simp only [pbind_of_done h1, pbind_of_done htag, pbind_of_done h2, pbind_of_done h3,
    pbind_of_done h4, pbind_of_done h5, ppure_eval]

theorem parse_uri_ok_of_done {b : Bytes} {u : URI} (h : uri b = .Done [] u) :
    parse_uri b = .ok u := by
  simp [parse_uri, h]

/-- Claim C1 (corrected): parse, render, re-parse round trip.  The original
claim fails when a parsed query value is empty and the map iteration order
does not place that pair last (see the counterexample theorem).  Amended
form: for every accepted input whose query values are all nonempty, rendering
the parsed value with any iteration order qp of its query map and re-parsing
succeeds and yields a value with the same scheme, user, host, port, path and
fragment, and the same query mapping. -/
theorem c1_round_trip_amended {i : Bytes} {u : URI} {qp : List (Bytes × Bytes)}
    (hok : parse_uri i = .ok u)
    (hqp : match u.query with
           | some m => qp.Perm m
           | none => qp = [])
    (hval : ∀ kv ∈ qp, kv.2 ≠ ([] : Bytes)) :
    ∃ u2, parse_uri (render u qp) = .ok u2 ∧ fieldsEquiv u2 u := by
  have hdone := parse_uri_ok_inv hok
  obtain ⟨s, r2, oa, r3, op, r4, oq, r5, oh, hsch, hauth, hpath, hq, hh, hu⟩ :=
    uri_done_elim hdone
  obtain ⟨rt0, hti0, htr0, hs58, hsv⟩ := scheme_done_inv hsch
  have hhash5 : r5 = hashR oh ∧ (hashR oh = [] ∨ ∃ hs2, hashR oh = 35 :: hs2) := by
    rcases popt_pcomplete_done_inv hh with ⟨hs0, hoh, hhd⟩ | ⟨hoh, hr5⟩
    · obtain ⟨hr5e, hclean, hvv, _⟩ := hash_done_inv hhd
      subst hoh
      refine ⟨?_, Or.inr ⟨hs0, rfl⟩⟩
      rw [hr5e]
      simp [hashR]
    · subst hoh
      exact ⟨hr5.symm, Or.inl rfl⟩
  obtain ⟨hr5H, hHw⟩ := hhash5
  have hh2 : popt (pcomplete hash) (hashR oh) = .Done [] oh := by
    rw [← hr5H]
    exact hh
  have hquery : ∃ oq2, popt (pcomplete query) (queryR oq qp ++ hashR oh)
      = .Done (hashR oh) oq2 ∧ queryEq oq2 oq ∧
      EndsLike r4 (queryR oq qp ++ hashR oh) := by
    rcases popt_pcomplete_done_inv hq with ⟨m, hoq, hqm⟩ | ⟨hoq, hr4⟩
    · subst hoq
      obtain ⟨q1, pairs, hr4q, hsep, hmcol⟩ := query_done_inv hqm
      have hpairsWF : ∀ kv ∈ pairs, kv.1 ≠ [] ∧ (∀ y ∈ kv.1, y ∉ stopQuery) ∧
          utf8Valid kv.1 = true ∧ (∀ y ∈ kv.2, y ∉ stopQuery) ∧
          utf8Valid kv.2 = true :=
        separatedList_elems hsep fun i2 r6 b hb =>
          query_item_done_inv (pcomplete_done_iff.mp hb)
      have huq : u.query = some m := by
        rw [hu]
        cases oa <;> rfl
      have hperm : qp.Perm m := by
        rw [huq] at hqp
        exact hqp
      have hqpWF : ∀ kv ∈ qp, PairWF kv := by
        intro kv hkv
        have hm2 : kv ∈ m := hperm.mem_iff.mp hkv
        have hp2 : kv ∈ pairs := mem_collect (hmcol ▸ hm2)
        obtain ⟨h1, h2, h3, h4, h5⟩ := hpairsWF kv hp2
        exact ⟨h1, h2, h3, hval kv hkv, h4, h5⟩
      have hqe := query_render_eval hqpWF hHw
      refine ⟨some (collect qp), ?_, ?_, ?_⟩
      · have hshape : queryR (some m) qp ++ hashR oh
            = 63 :: (renderPairs qp ++ hashR oh) := by
          simp [queryR]
        rw [hshape]
        exact popt_of_done (pcomplete_of_done hqe)
      · intro k
        rw [lookupKV_collect]
        have hnd : (m.map Prod.fst).Nodup := by
          rw [hmcol]
          exact collect_nodupKeys pairs
        exact lookupKV_eq_of_perm ((List.reverse_perm qp).trans hperm) hnd k
      · refine Or.inr ⟨63, Or.inl rfl, ?_, ?_⟩
        · rw [hr4q]
          rfl
        · simp [queryR]
    · subst hoq
      have hr4H : r4 = hashR oh := by
        rw [← hr4]
        exact hr5H
      have hq2n : popt (pcomplete query) (hashR oh) = .Done (hashR oh) none := by
        rcases hHw with h1 | ⟨hs2, h1⟩
        · rw [h1]
          exact popt_pcomplete_query_nil
        · rw [h1]
          exact popt_pcomplete_query_ne (b := 35) hs2 (by decide)
      have hshape : queryR none qp ++ hashR oh = hashR oh := by
        simp [queryR]
      refine ⟨none, ?_, trivial, ?_⟩
      · rw [hshape]
        exact hq2n
      · rw [hshape, hr4H]
        rcases hHw with h1 | ⟨hs2, h1⟩
        · exact Or.inl ⟨h1, h1⟩
        · refine Or.inr ⟨35, Or.inr rfl, ?_, ?_⟩ <;> simp [h1]
  obtain ⟨oq2, hq2, hqeq2, hEnds⟩ := hquery
  have hYrshape : queryR oq qp ++ hashR oh = [] ∨
      ∃ c rt2, queryR oq qp ++ hashR oh = c :: rt2 ∧ (c = 63 ∨ c = 35) := by
    rcases endsLike_cons hEnds with ⟨h1, h2⟩ | ⟨b, xt, xt2, hb, h1, h2⟩
    · exact Or.inl h2
    · exact Or.inr ⟨b, xt2, h2, hb⟩
  have hpathfacts : r3 = pathR op ++ r4 ∧
      (match op with
       | some pa => ∃ b pt, pa = b :: pt ∧ 255 - b ≠ 47 ∧ (∀ y ∈ pa, y ∉ stopPath) ∧
           utf8Valid pa = true
       | none => True) := by
    rcases popt_done_iff.mp hpath with ⟨pa, hop, hpp⟩ | ⟨hop, hr3r4, e, hpe⟩
    · subst hop
      obtain ⟨b, pt, hpa, hg, hi3, hclean, hvv, _⟩ := parse_path_done_inv hpp
      refine ⟨?_, b, pt, hpa, hg, hclean, hvv⟩
      rw [hi3]
      simp [pathR]
    · subst hop
      refine ⟨?_, trivial⟩
      rw [← hr3r4]
      simp [pathR]
  obtain ⟨hr3eq, hpw⟩ := hpathfacts
  have hpath2 : popt parse_path (pathR op ++ (queryR oq qp ++ hashR oh))
      = .Done (queryR oq qp ++ hashR oh) op := by
    cases op with
    | some pa =>
      obtain ⟨b, pt, hpa, hg, hclean, hvv⟩ := hpw
      subst hpa
      have hps : pathR (some (b :: pt)) ++ (queryR oq qp ++ hashR oh)
          = (b :: pt) ++ (queryR oq qp ++ hashR oh) := by
        simp [pathR]
      rw [hps]
      rcases hYrshape with hY | ⟨c, rt2, hY, hc⟩
      · rw [hY, List.append_nil]
        exact popt_of_done (parse_path_eval_all hg hclean hvv)
      · rw [hY]
        have hcs : c ∈ stopPath := by
          rcases hc with hc | hc <;> subst hc <;> decide
        exact popt_of_done (parse_path_eval_mid rt2 hg hclean hvv hcs)
    | none =>
      have hps : pathR none ++ (queryR oq qp ++ hashR oh)
          = queryR oq qp ++ hashR oh := by
        simp [pathR]
      rw [hps]
      rcases hYrshape with hY | ⟨c, rt2, hY, hc⟩
      · rw [hY]
        exact popt_of_error parse_path_nil
      · rw [hY]
        have hg2 : 255 - c ≠ 47 := by
          rcases hc with hc | hc <;> subst hc <;> decide
        have hcs : c ∈ stopPath := by
          rcases hc with hc | hc <;> subst hc <;> decide
        exact popt_of_error (parse_path_eval_stop rt2 hg2 hcs)
  rcases popt_done_iff.mp hauth with ⟨a, hoa, hA⟩ | ⟨hoa, hr2, e0, hae⟩
  · obtain ⟨ou, h0, opr⟩ := a
    subst hoa
    obtain ⟨t2, t3, t4, hr2eq, huserO, htokO, hportO⟩ := authority_done_inv hA
    obtain ⟨ht3eq, hh0c, hh0v, hrestTok⟩ := tokGen_done_inv htokO
    have hnilArg : h0 = [] → opr = none ∧
        pathR op ++ (queryR oq qp ++ hashR oh) = [] := by
      intro hh0
      subst hh0
      obtain ⟨ht3nil, ht4nil⟩ := tokGen_done_nil htokO
      have hoprn : opr = none := by
        rcases hportO with ⟨p, hopr, hpp⟩ | ⟨hopr, _⟩
        · rw [ht4nil] at hpp
          rw [portP_nil_incomplete] at hpp
          cases hpp
        · exact hopr
      have hr3nil : r3 = [] := by
        rcases hportO with ⟨p, hopr2, hpp⟩ | ⟨hopr2, hr3t4⟩
        · rw [hoprn] at hopr2
          cases hopr2
        · rw [hr3t4, ht4nil]
      have h2 := hr3eq
      rw [hr3nil] at h2
      obtain ⟨hW1, hr41⟩ := List.append_eq_nil.mp h2.symm
      have hE2 : EndsLike [] (queryR oq qp ++ hashR oh) := by
        rw [← hr41]
        exact hEnds
      have hY2 := endsLike_nil hE2
      refine ⟨hoprn, ?_⟩
      rw [hW1, hY2]
      rfl
    have hafterArg : h0 ≠ [] →
        portR opr ++ (pathR op ++ (queryR oq qp ++ hashR oh)) = [] ∨
        ∃ c rt2, portR opr ++ (pathR op ++ (queryR oq qp ++ hashR oh)) = c :: rt2 ∧
          c ∈ stopToken := by
      intro hh0ne
      rcases hportO with ⟨p, hopr, hpp⟩ | ⟨hopr, hr3t4⟩
      · subst hopr
        refine Or.inr ⟨58, decimal p ++ (pathR op ++ (queryR oq qp ++ hashR oh)),
          by simp [portR], by decide⟩
      · subst hopr
        cases op with
        | some pa =>
          obtain ⟨b, pt, hpa, hg, hclean, hvv⟩ := hpw
          have hr3c : r3 = b :: (pt ++ r4) := by
            rw [hr3eq]
            simp [pathR, hpa]
          have ht4c : t4 = b :: (pt ++ r4) := by
            rw [← hr3t4]
            exact hr3c
          rcases hrestTok with h1 | ⟨c, rtc, ht4c2, hcst, _⟩
          · rw [h1] at ht4c
            cases ht4c
          · rw [ht4c2] at ht4c
            have hcb : c = b := by injection ht4c
            refine Or.inr ⟨b, pt ++ (queryR oq qp ++ hashR oh),
              by simp [portR, pathR, hpa], ?_⟩
            rw [← hcb]
            exact hcst
        | none =>
          rcases hYrshape with hY | ⟨c, rt2, hY, hc⟩
          · exact Or.inl (by simp [portR, pathR, hY])
          · refine Or.inr ⟨c, rt2, by simp [portR, pathR, hY], ?_⟩
            rcases hc with hc | hc <;> subst hc <;> decide
    have hportArg : (∃ p, opr = some p ∧ p ≤ 65535 ∧
        (pathR op ++ (queryR oq qp ++ hashR oh) = [] ∨
          ∃ b2 rt2, pathR op ++ (queryR oq qp ++ hashR oh) = b2 :: rt2 ∧
            isDigitByte b2 = false)) ∨
        (opr = none ∧ (pathR op ++ (queryR oq qp ++ hashR oh) = [] ∨
          ∃ b2 rt2, pathR op ++ (queryR oq qp ++ hashR oh) = b2 :: rt2 ∧ b2 ≠ 58)) := by
      rcases hportO with ⟨p, hopr, hpp⟩ | ⟨hopr, hr3t4⟩
      · obtain ⟨ds, ht4ds, hdsne, hdsdig, hdsval, hple, hr3rest⟩ := portP_done_inv hpp
        refine Or.inl ⟨p, hopr, hple, ?_⟩
        cases op with
        | some pa =>
          obtain ⟨b, pt, hpa, hg, hclean, hvv⟩ := hpw
          have hr3c : r3 = b :: (pt ++ r4) := by
            rw [hr3eq]
            simp [pathR, hpa]
          rcases hr3rest with h1 | ⟨b2, rtb, hr3b2, hb2d⟩
          · rw [h1] at hr3c
            cases hr3c
          · rw [hr3b2] at hr3c
            have hbb : b2 = b := by injection hr3c
            refine Or.inr ⟨b, pt ++ (queryR oq qp ++ hashR oh),
              by simp [pathR, hpa], ?_⟩
            rw [← hbb]
            exact hb2d
        | none =>
          rcases hYrshape with hY | ⟨c, rt2, hY, hc⟩
          · exact Or.inl (by simp [pathR, hY])
          · refine Or.inr ⟨c, rt2, by simp [pathR, hY], ?_⟩
            rcases hc with hc | hc <;> subst hc <;> decide
      · refine Or.inr ⟨hopr, ?_⟩
        cases op with
        | some pa =>
          obtain ⟨b, pt, hpa, hg, hclean, hvv⟩ := hpw
          have hb58 : b ≠ 58 := by
            intro he
            have hbp : b ∉ stopPath := hclean b (by rw [hpa]; simp)
            rw [he] at hbp
            exact hbp (by decide)
          exact Or.inr ⟨b, pt ++ (queryR oq qp ++ hashR oh),
            by simp [pathR, hpa], hb58⟩
        | none =>
          rcases hYrshape with hY | ⟨c, rt2, hY, hc⟩
          · exact Or.inl (by simp [pathR, hY])
          · refine Or.inr ⟨c, rt2, by simp [pathR, hY], ?_⟩
            rcases hc with hc | hc <;> subst hc <;> decide
    have huserArg : (∃ us, ou = some us ∧ us.name ≠ [] ∧
        (∀ y ∈ us.name, y ∉ stopToken) ∧ utf8Valid us.name = true ∧
        ((∃ p2, us.password = some p2 ∧ p2 ≠ [] ∧ (∀ y ∈ p2, y ∉ stopToken) ∧
            utf8Valid p2 = true) ∨ us.password = none)) ∨
        (ou = none ∧ ∃ e2, pcomplete user
          (h0 ++ (portR opr ++ (pathR op ++ (queryR oq qp ++ hashR oh))))
          = .Error e2) := by
      rcases huserO with ⟨us, hou, hud⟩ | ⟨hou, ht3t2, e1, hue⟩
      · obtain ⟨hn1, hn2, hn3, hpwm⟩ := user_done_inv hud
        refine Or.inl ⟨us, hou, hn1, hn2, hn3, ?_⟩
        cases hpw2 : us.password with
        | some p2 =>
          rw [hpw2] at hpwm
          exact Or.inl ⟨p2, rfl, hpwm.1, hpwm.2.1, hpwm.2.2.1⟩
        | none => exact Or.inr rfl
      · refine Or.inr ⟨hou, ?_⟩
        have ht2eq : t2 = h0 ++ t4 := by
          rw [← ht3t2, ht3eq]
        rcases hportO with ⟨p, hopr, hpp⟩ | ⟨hopr, hr3t4⟩
        · subst hopr
          obtain ⟨ds, ht4ds, hdsne, hdsdig, hdsval, hple, hr3rest⟩ := portP_done_inv hpp
          have hh0ne : h0 ≠ [] := by
            intro hh0
            subst hh0
            obtain ⟨_, ht4nil⟩ := tokGen_done_nil htokO
            rw [ht4nil] at ht4ds
            cases ht4ds
          have hueZ : pcomplete user (h0 ++ 58 :: (ds ++ (pathR op ++ r4)))
              = .Error e1 := by
            rw [← hr3eq, ← ht4ds, ← ht2eq]
            exact hue
          have hnophi : ¬ ∃ z1 z2, ds ++ (pathR op ++ r4) = z1 ++ 64 :: z2 ∧ z1 ≠ [] ∧
              (∀ y ∈ z1, y ∉ stopToken) ∧ utf8Valid z1 = true := by
            rcases user58_analysis hh0ne hh0c hh0v (Z := ds ++ (pathR op ++ r4)) with
              ⟨z1, z2, hzz, hz1ne, hz1cl, hz1v, hudone⟩ | ⟨hnphi, _⟩
            · rw [pcomplete_of_done hudone] at hueZ
              cases hueZ
            · exact hnphi
          rcases user58_analysis hh0ne hh0c hh0v
              (Z := decimal p ++ (pathR op ++ (queryR oq qp ++ hashR oh))) with
            ⟨z1, z2, hzz, hz1ne, hz1cl, hz1v, hudone⟩ | ⟨_, e2, he2⟩
          · exact absurd (split64_transfer (decimal_digits p) hdsne hdsdig
              (endsLike_symm hEnds) ⟨z1, z2, hzz, hz1ne, hz1cl, hz1v⟩) hnophi
          · refine ⟨e2, ?_⟩
            have hsh2 : h0 ++ (portR (some p)
                ++ (pathR op ++ (queryR oq qp ++ hashR oh)))
                = h0 ++ 58 :: (decimal p ++ (pathR op ++ (queryR oq qp ++ hashR oh))) := by
              simp [portR]
            rw [hsh2]
            exact he2
        · subst hopr
          have hueA : pcomplete user ((h0 ++ pathR op) ++ r4) = .Error e1 := by
            rw [List.append_assoc, ← hr3eq, hr3t4, ← ht2eq]
            exact hue
          obtain ⟨e2, he2⟩ := pcomplete_error_replay isLocal_user hEnds hueA
          refine ⟨e2, ?_⟩
          have hsh2 : h0 ++ (portR none ++ (pathR op ++ (queryR oq qp ++ hashR oh)))
              = (h0 ++ pathR op) ++ (queryR oq qp ++ hashR oh) := by
            simp [portR]
          rw [hsh2]
          exact he2
    have hAR := authority_render_eval hh0c hh0v huserArg hafterArg hnilArg hportArg
    have hrender : render u qp = s ++ 58 :: (47 :: 47 :: (userR ou ++ (h0 ++ (portR opr
        ++ (pathR op ++ (queryR oq qp ++ hashR oh)))))) := by
      rw [hu]
      simp [render, mkURI, hostR]
    have huri2 : uri (render u qp)
        = .Done [] (mkURI s (some (ou, h0, opr)) op oq2 oh) := by
      rw [hrender]
      exact uri_render_done (scheme_eval _ hs58 hsv) (popt_of_done hAR) hpath2 hq2 hh2
    refine ⟨mkURI s (some (ou, h0, opr)) op oq2 oh, parse_uri_ok_of_done huri2, ?_⟩
    rw [hu]
    exact ⟨rfl, rfl, rfl, rfl, rfl, rfl, hqeq2⟩
  · subst hoa
    have haeW : authority (pathR op ++ r4) = .Error e0 := by
      rw [← hr3eq, hr2]
      exact hae
    have hreplay := authority_error_replay hEnds haeW
    have hrender : render u qp
        = s ++ 58 :: (pathR op ++ (queryR oq qp ++ hashR oh)) := by
      rw [hu]
      simp [render, mkURI, userR, hostR, portR]
    have huri2 : uri (render u qp) = .Done [] (mkURI s none op oq2 oh) := by
      rw [hrender]
      exact uri_render_done (scheme_eval _ hs58 hsv) (popt_of_error hreplay)
        hpath2 hq2 hh2
    refine ⟨mkURI s none op oq2 oh, parse_uri_ok_of_done huri2, ?_⟩
    rw [hu]
    exact ⟨rfl, rfl, rfl, rfl, rfl, rfl, hqeq2⟩

/-- Claim C1 counterexample to the unrestricted round trip: "s://h?x=y&a="
parses (its query map holds x with value "y" and a with the empty value);
rendering that value with the iteration order that puts the a-pair first — a
legitimate HashMap iteration order, witnessed by the permutation conjunct —
produces "s://h?a=&x=y", and re-parsing that text fails with NotFullyParsed
instead of round-tripping: the empty value makes the pair list parser stop
before the rendered '?', leaving "a=&x=y" unconsumed. -/
theorem c1_counterexample :
    parse_uri (ascii "s://h?x=y&a=") =
      .ok { scheme := ascii "s", user := none, host := some (ascii "h"), port := none,
            path := none, query := some [(ascii "x", ascii "y"), (ascii "a", [])],
            hash := none } ∧
    List.Perm [(ascii "a", ([] : Bytes)), (ascii "x", ascii "y")]
      [(ascii "x", ascii "y"), (ascii "a", [])] ∧
    render { scheme := ascii "s", user := none, host := some (ascii "h"), port := none,
             path := none, query := some [(ascii "x", ascii "y"), (ascii "a", [])],
             hash := none }
        [(ascii "a", []), (ascii "x", ascii "y")] = ascii "s://h?a=&x=y" ∧
    parse_uri (ascii "s://h?a=&x=y") = .error .NotFullyParsed := by
  refine ⟨?_, ?_, ?_, ?_⟩ <;> decide

/-- Witness for c1_round_trip_amended at "s://h?a=1&b=2" with the rendered
query pairs in the reversed iteration order. -/
theorem c1_witness :
    parse_uri (ascii "s://h?a=1&b=2") =
      .ok { scheme := ascii "s", user := none, host := some (ascii "h"), port := none,
            path := none, query := some [(ascii "a", ascii "1"), (ascii "b", ascii "2")],
            hash := none } ∧
    ∃ u2, parse_uri (render
        { scheme := ascii "s", user := none, host := some (ascii "h"), port := none,
          path := none, query := some [(ascii "a", ascii "1"), (ascii "b", ascii "2")],
          hash := none }
        [(ascii "b", ascii "2"), (ascii "a", ascii "1")]) = .ok u2 ∧
      fieldsEquiv u2
        { scheme := ascii "s", user := none, host := some (ascii "h"), port := none,
          path := none, query := some [(ascii "a", ascii "1"), (ascii "b", ascii "2")],
          hash := none } :=
  ⟨by decide, c1_round_trip_amended (i := ascii "s://h?a=1&b=2")
    (by decide) (by decide) (by decide)⟩

end Uri
